import Mathlib

/-!
Verification of the images subsystem of the discuit repository.

The Go source of the `images` package is embedded shallowly: Go strings are
modelled as lists of characters, byte slices as lists of natural numbers
(each below 256 where the code keeps them so), and the float64 arithmetic of
the geometry and color routines as exact rational arithmetic (the modelled
computations stay within the range where float64 arithmetic is exact).
-/

namespace DiscuitImages

/-- Strings of the Go code are modelled as lists of characters. -/
abbrev Str : Type := List Char

/-- Decimal digit character test (byte range '0'..'9'). -/
def isDigitChar (c : Char) : Bool := 48 ≤ c.toNat && c.toNat ≤ 57

/-- Lowercase hexadecimal digit, the alphabet of canonical image ids. -/
def isLowerHexChar (c : Char) : Bool :=
  (48 ≤ c.toNat && c.toNat ≤ 57) || (97 ≤ c.toNat && c.toNat ≤ 102)

/-- Model of Go's strings.Cut: split around the first occurrence of `sep`,
returning the part before, the part after, and whether `sep` occurred. -/
def cut (sep : Char) : Str → Str × Str × Bool
  | [] => ([], [], false)
  | c :: rest =>
    if c = sep then ([], rest, true)
    else
      let r := cut sep rest
      (c :: r.1, r.2.1, r.2.2)

theorem cut_not_mem (sep : Char) (l : Str) (h : sep ∉ l) :
    cut sep l = (l, [], false) := by
  induction l with
  | nil => rfl
  | cons c rest ih =>
    have hc : ¬ c = sep := fun he => h (he ▸ List.mem_cons_self c rest)
    have hrest : sep ∉ rest := fun hm => h (List.mem_cons_of_mem c hm)
    simp [cut, hc, ih hrest]

theorem cut_append (sep : Char) (l₁ l₂ : Str) (h : sep ∉ l₁) :
    cut sep (l₁ ++ sep :: l₂) = (l₁, l₂, true) := by
  induction l₁ with
  | nil => simp [cut]
  | cons c rest ih =>
    have hc : ¬ c = sep := fun he => h (he ▸ List.mem_cons_self c rest)
    have hrest : sep ∉ rest := fun hm => h (List.mem_cons_of_mem c hm)
    simp [cut, hc, ih hrest]

/-- Splitting at a separator character absent from both sides is injective. -/
theorem append_sep_inj {c : Char} {a₁ b₁ a₂ b₂ : Str}
    (h₁ : c ∉ a₁) (h₂ : c ∉ a₂) (he : a₁ ++ c :: b₁ = a₂ ++ c :: b₂) :
    a₁ = a₂ ∧ b₁ = b₂ := by
  induction a₁ generalizing a₂ with
  | nil =>
    cases a₂ with
    | nil => simpa using he
    | cons x xs =>
      simp only [List.nil_append, List.cons_append, List.cons.injEq] at he
      exact absurd (he.1 ▸ List.mem_cons_self x xs) (he.1 ▸ h₂)
  | cons y ys ih =>
    cases a₂ with
    | nil =>
      simp only [List.nil_append, List.cons_append, List.cons.injEq] at he
      exact absurd (he.1 ▸ List.mem_cons_self y ys) (fun hm => h₁ (he.1 ▸ hm))
    | cons x xs =>
      simp only [List.cons_append, List.cons.injEq] at he
      have h₁' : c ∉ ys := fun hm => h₁ (List.mem_cons_of_mem y hm)
      have h₂' : c ∉ xs := fun hm => h₂ (List.mem_cons_of_mem x hm)
      obtain ⟨hy, hb⟩ := ih h₁' h₂' he.2
      exact ⟨by rw [he.1, hy], hb⟩

/-- Character of a single decimal digit value. -/
def digitChar (n : ℕ) : Char := Char.ofNat (48 + n)

/-- Big-endian decimal digits of a natural number, as written by Go's
strconv integer formatting. -/
def natToChars (n : ℕ) : Str :=
  if n < 10 then [digitChar n]
  else natToChars (n / 10) ++ [digitChar (n % 10)]
  decreasing_by exact Nat.div_lt_self (by omega) (by omega)

def charToDigit (c : Char) : Option ℕ :=
  if isDigitChar c then some (c.toNat - 48) else none

def parseNatAux : ℕ → Str → Option ℕ
  | acc, [] => some acc
  | acc, c :: rest =>
    match charToDigit c with
    | none => none
    | some d => parseNatAux (acc * 10 + d) rest

/-- Parse a nonempty all-digit string as a natural number. -/
def parseNat (l : Str) : Option ℕ :=
  if l = [] then none else parseNatAux 0 l

theorem charToDigit_digitChar : ∀ d < 10, charToDigit (digitChar d) = some d := by
  decide

theorem isDigitChar_digitChar : ∀ d < 10, isDigitChar (digitChar d) = true := by
  decide

theorem natToChars_ne_nil (n : ℕ) : natToChars n ≠ [] := by
  rw [natToChars]
  split <;> simp

theorem natToChars_all_digits (n : ℕ) : ∀ c ∈ natToChars n, isDigitChar c = true := by
  induction n using Nat.strong_induction_on with
  | _ n ih =>
    rw [natToChars]
    split
    · intro c hc
      rw [List.mem_singleton] at hc
      exact hc ▸ isDigitChar_digitChar n (by omega)
    · intro c hc
      rcases List.mem_append.mp hc with h | h
      · exact ih (n / 10) (Nat.div_lt_self (by omega) (by omega)) c h
      · rw [List.mem_singleton] at h
        exact h ▸ isDigitChar_digitChar (n % 10) (Nat.mod_lt _ (by omega))

theorem parseNatAux_append (acc : ℕ) (l₁ l₂ : Str) :
    parseNatAux acc (l₁ ++ l₂) =
      (parseNatAux acc l₁).bind fun m => parseNatAux m l₂ := by
  induction l₁ generalizing acc with
  | nil => simp [parseNatAux]
  | cons c rest ih =>
    simp only [List.cons_append, parseNatAux]
    cases charToDigit c with
    | none => simp
    | some d => simp [ih]

theorem parseNatAux_natToChars (n : ℕ) :
    ∀ acc, parseNatAux acc (natToChars n) =
      some (acc * 10 ^ (natToChars n).length + n) := by
  induction n using Nat.strong_induction_on with
  | _ n ih =>
    intro acc
    rw [natToChars]
    split
    · next h =>
      simp [parseNatAux, charToDigit_digitChar n h]
    · next h =>
      rw [parseNatAux_append, ih (n / 10) (Nat.div_lt_self (by omega) (by omega)) acc]
      simp only [Option.some_bind, parseNatAux,
        charToDigit_digitChar (n % 10) (Nat.mod_lt _ (by omega)),
        List.length_append, List.length_singleton, pow_succ, Option.some.injEq]
      have h1 : (acc * 10 ^ (natToChars (n / 10)).length + n / 10) * 10 + n % 10
          = acc * (10 ^ (natToChars (n / 10)).length * 10) + (10 * (n / 10) + n % 10) := by
        ring
      rw [h1, Nat.div_add_mod]

theorem parseNat_natToChars (n : ℕ) : parseNat (natToChars n) = some n := by
  rw [parseNat, if_neg (natToChars_ne_nil n), parseNatAux_natToChars]
  simp

theorem natToChars_injective {m n : ℕ} (h : natToChars m = natToChars n) : m = n := by
  have := parseNat_natToChars m
  rw [h, parseNat_natToChars n] at this
  exact (Option.some.injEq _ _ ▸ this).symm

/-- Largest value of Go's 64-bit int type. -/
def maxInt64 : ℕ := 9223372036854775807

/-- Model of Go strconv.Itoa on a value of Go's int type. -/
def itoa (z : ℤ) : Str :=
  if z < 0 then '-' :: natToChars (-z).toNat else natToChars z.toNat

/-- Model of Go strconv.Atoi: optional sign, decimal digits, 64-bit range
check (out-of-range input is an error). -/
def atoi (s : Str) : Option ℤ :=
  match s with
  | [] => none
  | c :: rest =>
    if c = '-' then
      (parseNat rest).bind fun n =>
        if n ≤ maxInt64 + 1 then some (-(n : ℤ)) else none
    else if c = '+' then
      (parseNat rest).bind fun n =>
        if n ≤ maxInt64 then some ((n : ℤ)) else none
    else
      (parseNat (c :: rest)).bind fun n =>
        if n ≤ maxInt64 then some ((n : ℤ)) else none

/-- The 64-bit range of Go's int type, in which all Go int values live. -/
def goIntRange (z : ℤ) : Prop := -((maxInt64 : ℤ) + 1) ≤ z ∧ z ≤ (maxInt64 : ℤ)

instance (z : ℤ) : Decidable (goIntRange z) := by
  unfold goIntRange
  infer_instance

theorem natToChars_exists_cons (n : ℕ) :
    ∃ c cs, natToChars n = c :: cs ∧ isDigitChar c = true := by
  cases h : natToChars n with
  | nil => exact absurd h (natToChars_ne_nil n)
  | cons c cs =>
    exact ⟨c, cs, rfl, natToChars_all_digits n c (h ▸ List.mem_cons_self c cs)⟩

theorem isDigitChar_ne_minus {c : Char} (h : isDigitChar c = true) : ¬ c = '-' := by
  intro he
  rw [he] at h
  exact absurd h (by decide)

theorem isDigitChar_ne_plus {c : Char} (h : isDigitChar c = true) : ¬ c = '+' := by
  intro he
  rw [he] at h
  exact absurd h (by decide)

theorem isDigitChar_ne_x {c : Char} (h : isDigitChar c = true) : ¬ c = 'x' := by
  intro he
  rw [he] at h
  exact absurd h (by decide)

theorem atoi_itoa (z : ℤ) (h : goIntRange z) : atoi (itoa z) = some z := by
  obtain ⟨h1, h2⟩ := h
  rw [itoa]
  split
  · next hneg =>
    have hb : (-z).toNat ≤ maxInt64 + 1 := by
      rw [Int.toNat_le]
      push_cast
      omega
    have hun : atoi ('-' :: natToChars (-z).toNat)
        = (parseNat (natToChars (-z).toNat)).bind
            fun n => if n ≤ maxInt64 + 1 then some (-(n : ℤ)) else none := by
      simp [atoi]
    rw [hun, parseNat_natToChars, Option.some_bind, if_pos hb]
    rw [Int.toNat_of_nonneg (by omega)]
    simp
  · next hpos =>
    obtain ⟨c, cs, hcons, hdig⟩ := natToChars_exists_cons z.toNat
    have hb : z.toNat ≤ maxInt64 := by
      rw [Int.toNat_le]
      omega
    rw [hcons, atoi, if_neg (isDigitChar_ne_minus hdig), if_neg (isDigitChar_ne_plus hdig),
      ← hcons, parseNat_natToChars, Option.some_bind, if_pos hb]
    rw [Int.toNat_of_nonneg (by omega)]

theorem itoa_ne_nil (z : ℤ) : itoa z ≠ [] := by
  rw [itoa]
  split
  · simp
  · exact natToChars_ne_nil _

theorem itoa_all_not_x (z : ℤ) : 'x' ∉ itoa z := by
  rw [itoa]
  intro hm
  split at hm
  · rcases List.mem_cons.mp hm with h | h
    · exact absurd h (by decide)
    · exact isDigitChar_ne_x (natToChars_all_digits _ _ h) rfl
  · exact isDigitChar_ne_x (natToChars_all_digits _ _ hm) rfl

theorem itoa_injective {z₁ z₂ : ℤ} (h : itoa z₁ = itoa z₂) : z₁ = z₂ := by
  rw [itoa, itoa] at h
  split at h <;> split at h
  · next hn1 hn2 =>
    have := natToChars_injective (List.cons.injEq _ _ _ _ ▸ h).2
    omega
  · next hn1 hn2 =>
    obtain ⟨c, cs, hcons, hdig⟩ := natToChars_exists_cons z₂.toNat
    rw [hcons] at h
    exact absurd ((List.cons.injEq _ _ _ _ ▸ h).1.symm) (isDigitChar_ne_minus hdig)
  · next hn1 hn2 =>
    obtain ⟨c, cs, hcons, hdig⟩ := natToChars_exists_cons z₁.toNat
    rw [hcons] at h
    exact absurd ((List.cons.injEq _ _ _ _ ▸ h).1) (isDigitChar_ne_minus hdig)
  · next hn1 hn2 =>
    have := natToChars_injective h
    omega

/-- ImageFormat represents the type of image (a Go string type). -/
abbrev ImageFormat : Type := Str

def ImageFormatJPEG : ImageFormat := ['j', 'p', 'e', 'g']

def ImageFormatWEBP : ImageFormat := ['w', 'e', 'b', 'p']

def ImageFormatPNG : ImageFormat := ['p', 'n', 'g']

/-- Valid reports whether f is supported by the image package
(ImageFormat.Valid). -/
def formatValid (f : ImageFormat) : Bool :=
  f = ImageFormatJPEG ∨ f = ImageFormatWEBP ∨ f = ImageFormatPNG

/-- Extension returns "." + f (ImageFormat.Extension). -/
def extension (f : ImageFormat) : Str := '.' :: f

/-- RGB color channel values; the Go struct stores them as uint32. -/
structure RGB where
  red : ℕ
  green : ℕ
  blue : ℕ
deriving DecidableEq

/-- ImageSize represents the size of an image; the components are Go ints. -/
structure ImageSize where
  width : ℤ
  height : ℤ
deriving DecidableEq

/-- Zero returns true if either the width or the height is 0
(ImageSize.Zero). -/
def ImageSize.zero (s : ImageSize) : Bool := s.width = 0 ∨ s.height = 0

/-- String returns "N" when width = height, else "WxH" (ImageSize.String). -/
def ImageSize.string (s : ImageSize) : Str :=
  if s.width = s.height then itoa s.width
  else itoa s.width ++ 'x' :: itoa s.height

/-- UnmarshalText (ImageSize.UnmarshalText): Go locates the first "x" with
strings.Index and demands at least one character after it (the check
len(str) < i+2); `cut` packages the same index arithmetic as the substrings
before/after the first 'x' plus a found flag, with the length check becoming
emptiness of the suffix. -/
def ImageSize.unmarshalText (text : Str) : Option ImageSize :=
  let r := cut 'x' text
  if r.2.2 = false then
    (atoi text).map fun w => ⟨w, w⟩
  else if r.2.1 = [] then none
  else do
    let w ← atoi r.1
    let h ← atoi r.2.1
    pure ⟨w, h⟩

theorem unmarshalText_string (s : ImageSize)
    (hw : goIntRange s.width) (hh : goIntRange s.height) :
    ImageSize.unmarshalText s.string = some s := by
  rw [ImageSize.string]
  split
  · next heq =>
    simp only [ImageSize.unmarshalText, cut_not_mem 'x' _ (itoa_all_not_x s.width)]
    simp only [if_true, atoi_itoa _ hw, Option.map_some, Option.some.injEq]
    cases s with
    | mk w hgt =>
      have hwh : w = hgt := heq
      subst hwh
      rfl
  · next hne =>
    simp only [ImageSize.unmarshalText,
      cut_append 'x' (itoa s.width) (itoa s.height) (itoa_all_not_x s.width)]
    rw [if_neg (by simp), if_neg (itoa_ne_nil s.height), atoi_itoa _ hw]
    simp only [Option.bind_eq_bind', Option.some_bind, atoi_itoa _ hh, Option.pure_def]

theorem sizeString_injective {s₁ s₂ : ImageSize}
    (h : s₁.string = s₂.string) : s₁ = s₂ := by
  rw [ImageSize.string, ImageSize.string] at h
  split at h <;> split at h
  · next ha hb =>
    have hww := itoa_injective h
    cases s₁; cases s₂
    simp only [ImageSize.mk.injEq]
    simp only at ha hb hww
    omega
  · next ha hb =>
    exact absurd (h ▸ List.mem_append_right (itoa s₂.width) (List.mem_cons_self 'x' _))
      (itoa_all_not_x s₁.width)
  · next ha hb =>
    exact absurd (h.symm ▸ List.mem_append_right (itoa s₁.width) (List.mem_cons_self 'x' _))
      (itoa_all_not_x s₂.width)
  · next ha hb =>
    obtain ⟨hw, hh⟩ := append_sep_inj (itoa_all_not_x s₁.width) (itoa_all_not_x s₂.width) h
    have hww := itoa_injective hw
    have hhh := itoa_injective hh
    cases s₁; cases s₂
    simp only [ImageSize.mk.injEq]
    exact ⟨hww, hhh⟩

/-- ImageFit denotes how an image is to be fitted into a rectangle
(a Go string type). -/
abbrev ImageFit : Type := Str

def ImageFitCover : ImageFit := ['c', 'o', 'v', 'e', 'r']

def ImageFitContain : ImageFit := ['c', 'o', 'n', 't', 'a', 'i', 'n']

def ImageFitDefault : ImageFit := ImageFitContain

/-- Supported returns false if f is not supported by this package
(ImageFit.Supported). -/
def fitSupported (f : ImageFit) : Bool := f = ImageFitCover ∨ f = ImageFitContain

/-- Modelled from the spec: image ids (package internal/uid, which is not
under src/) are fixed-width identifiers whose canonical string form is 24
lowercase hexadecimal characters; parsing accepts exactly the canonical
forms and is the inverse of the string form. -/
def isUIDStr (s : Str) : Bool := s.length = 24 ∧ s.all isLowerHexChar

/-- An image id, carried by its canonical string form. -/
abbrev UID : Type := { s : Str // isUIDStr s = true }

/-- Canonical string form of an id (uid.ID.String, modelled from the spec). -/
def uidString (id : UID) : Str := id.val

/-- Modelled from the spec: uid.FromString parses a canonical id string and
rejects anything else. -/
def uidFromString (s : Str) : Option UID :=
  if h : isUIDStr s = true then some ⟨s, h⟩ else none

theorem uidFromString_uidString (id : UID) : uidFromString (uidString id) = some id := by
  unfold uidFromString uidString
  rw [dif_pos id.property]

theorem uid_chars_hex (id : UID) : ∀ c ∈ uidString id, isLowerHexChar c = true := by
  have hp := id.property
  rw [isUIDStr] at hp
  simp only [Bool.and_eq_true, decide_eq_true_eq, List.all_eq_true] at hp
  exact fun c hc => hp.2 c hc

theorem isLowerHexChar_ne {c : Char} (h : isLowerHexChar c = true) :
    c ≠ '.' ∧ c ≠ '/' ∧ c ≠ '?' ∧ c ≠ '&' ∧ c ≠ '=' ∧ c ≠ '_' ∧ c ≠ '%' ∧
    c ≠ '+' ∧ c ≠ ';' ∧ c ≠ '#' := by
  refine ⟨?_, ?_, ?_, ?_, ?_, ?_, ?_, ?_, ?_, ?_⟩ <;>
    · intro he
      rw [he] at h
      exact absurd h (by decide)

/-! ## HMAC-SHA-256 (the semantics of Go's crypto/sha256 and crypto/hmac,
which the images package calls through hmac.New(sha256.New, HMACKey)). -/

/-- Byte sequences are lists of naturals (below 256 whenever the code keeps
them so). -/
abbrev Bytes : Type := List ℕ

/-- Truncation to a 32-bit word. -/
def w32 (n : ℕ) : ℕ := n % 4294967296

/-- Right rotation of a 32-bit word. -/
def rotr32 (k x : ℕ) : ℕ := w32 ((x >>> k) ||| (x <<< (32 - k)))

/-- Bitwise complement of a 32-bit word. -/
def bnot32 (x : ℕ) : ℕ := x ^^^ 4294967295

def shaCh (x y z : ℕ) : ℕ := (x &&& y) ^^^ (bnot32 x &&& z)

def shaMaj (x y z : ℕ) : ℕ := (x &&& y) ^^^ (x &&& z) ^^^ (y &&& z)

def bigSigma0 (x : ℕ) : ℕ := rotr32 2 x ^^^ rotr32 13 x ^^^ rotr32 22 x

def bigSigma1 (x : ℕ) : ℕ := rotr32 6 x ^^^ rotr32 11 x ^^^ rotr32 25 x

def smallSigma0 (x : ℕ) : ℕ := rotr32 7 x ^^^ rotr32 18 x ^^^ (x >>> 3)

def smallSigma1 (x : ℕ) : ℕ := rotr32 17 x ^^^ rotr32 19 x ^^^ (x >>> 10)

/-- The SHA-256 round constants. -/
def sha256K : List ℕ :=
  [1116352408, 1899447441, 3049323471, 3921009573,
   961987163, 1508970993, 2453635748, 2870763221,
   3624381080, 310598401, 607225278, 1426881987,
   1925078388, 2162078206, 2614888103, 3248222580,
   3835390401, 4022224774, 264347078, 604807628,
   770255983, 1249150122, 1555081692, 1996064986,
   2554220882, 2821834349, 2952996808, 3210313671,
   3336571891, 3584528711, 113926993, 338241895,
   666307205, 773529912, 1294757372, 1396182291,
   1695183700, 1986661051, 2177026350, 2456956037,
   2730485921, 2820302411, 3259730800, 3345764771,
   3516065817, 3600352804, 4094571909, 275423344,
   430227734, 506948616, 659060556, 883997877,
   958139571, 1322822218, 1537002063, 1747873779,
   1955562222, 2024104815, 2227730452, 2361852424,
   2428436474, 2756734187, 3204031479, 3329325298]

/-- The SHA-256 initial hash value. -/
def sha256H0 : List ℕ :=
  [1779033703, 3144134277, 1013904242, 2773480762,
   1359893119, 2600822924, 528734635, 1541459225]

/-- Big-endian bytes of a value, fixed width. -/
def beBytes : ℕ → ℕ → Bytes
  | 0, _ => []
  | k + 1, v => beBytes k (v / 256) ++ [v % 256]

/-- SHA-256 message padding: a 0x80 byte, zeros to 56 mod 64, and the
big-endian 64-bit bit length. -/
def sha256Pad (msg : Bytes) : Bytes :=
  let L := msg.length
  msg ++ 128 :: List.replicate ((64 - ((L + 9) % 64)) % 64) 0 ++
    beBytes 8 ((L * 8) % 18446744073709551616)

/-- Split into blocks of 64 bytes. -/
def chunks64 : Bytes → List Bytes
  | [] => []
  | a :: rest => (a :: rest.take 63) :: chunks64 (rest.drop 63)
  termination_by l => l.length
  decreasing_by simp only [List.length_cons, List.length_drop]; omega

/-- Split into groups of 4 bytes. -/
def chunks4 : Bytes → List Bytes
  | [] => []
  | a :: rest => (a :: rest.take 3) :: chunks4 (rest.drop 3)
  termination_by l => l.length
  decreasing_by simp only [List.length_cons, List.length_drop]; omega

/-- A big-endian 32-bit word from 4 bytes. -/
def wordOfBytes (bs : Bytes) : ℕ := bs.foldl (fun acc b => acc * 256 + b) 0

def bytesToWords (block : Bytes) : List ℕ := (chunks4 block).map wordOfBytes

def iterateFn (f : α → α) : ℕ → α → α
  | 0, a => a
  | n + 1, a => iterateFn f n (f a)

/-- One extension step of the SHA-256 message schedule. -/
def scheduleStep (w : List ℕ) : List ℕ :=
  w ++ [w32 (smallSigma1 (w.getD (w.length - 2) 0) + w.getD (w.length - 7) 0 +
    smallSigma0 (w.getD (w.length - 15) 0) + w.getD (w.length - 16) 0)]

/-- The 64-entry message schedule from the 16 words of a block. -/
def buildSchedule (w16 : List ℕ) : List ℕ := iterateFn scheduleStep 48 w16

/-- One SHA-256 round on the eight working variables. -/
def sha256Round (w : List ℕ) (st : List ℕ) (t : ℕ) : List ℕ :=
  match st with
  | [a, b, c, d, e, f, g, h] =>
    let t1 := w32 (h + bigSigma1 e + shaCh e f g + sha256K.getD t 0 + w.getD t 0)
    let t2 := w32 (bigSigma0 a + shaMaj a b c)
    [w32 (t1 + t2), a, b, c, w32 (d + t1), e, f, g]
  | other => other

/-- Compression of one 64-byte block into the running hash. -/
def sha256Compress (h : List ℕ) (block : Bytes) : List ℕ :=
  let w := buildSchedule (bytesToWords block)
  let st := (List.range 64).foldl (sha256Round w) h
  List.zipWith (fun x y => w32 (x + y)) h st

/-- SHA-256 of a byte sequence. -/
def sha256 (msg : Bytes) : Bytes :=
  let hs := (chunks64 (sha256Pad msg)).foldl sha256Compress sha256H0
  hs.foldr (fun wrd acc => beBytes 4 wrd ++ acc) []

/-- HMAC-SHA-256 with block size 64, exactly as crypto/hmac composes the
hash: keys longer than a block are hashed first, then zero-padded. -/
def hmacSha256 (key msg : Bytes) : Bytes :=
  let k1 := if 64 < key.length then sha256 key else key
  let k0 := k1 ++ List.replicate (64 - k1.length) 0
  sha256 ((k0.map fun b => b ^^^ 92) ++ sha256 ((k0.map fun b => b ^^^ 54) ++ msg))

/-- Model of crypto/subtle.ConstantTimeCompare, which hmac.Equal wraps:
unequal lengths compare unequal; otherwise the or-accumulation of the
bytewise xors must vanish. -/
def constantTimeCompare (a b : Bytes) : Bool :=
  if a.length ≠ b.length then false
  else ((List.zipWith (fun x y => x ^^^ y) a b).foldl (fun acc v => acc ||| v) 0) = 0

theorem lor_eq_zero_iff (a b : ℕ) : a ||| b = 0 ↔ a = 0 ∧ b = 0 := by
  constructor
  · intro h
    constructor
    · refine Nat.eq_of_testBit_eq fun i => ?_
      have := congrArg (fun v => Nat.testBit v i) h
      simp only [Nat.testBit_or, Nat.zero_testBit, Bool.or_eq_false_iff] at this
      simpa using this.1
    · refine Nat.eq_of_testBit_eq fun i => ?_
      have := congrArg (fun v => Nat.testBit v i) h
      simp only [Nat.testBit_or, Nat.zero_testBit, Bool.or_eq_false_iff] at this
      simpa using this.2
  · rintro ⟨rfl, rfl⟩
    rfl

theorem foldl_lor_eq_zero (l : List ℕ) :
    ∀ acc, (l.foldl (fun a v => a ||| v) acc = 0 ↔ acc = 0 ∧ ∀ x ∈ l, x = 0) := by
  induction l with
  | nil => simp
  | cons x rest ih =>
    intro acc
    simp only [List.foldl_cons, ih, List.mem_cons]
    constructor
    · rintro ⟨hor, hall⟩
      rw [lor_eq_zero_iff] at hor
      exact ⟨hor.1, fun y hy => hy.elim (fun he => he ▸ hor.2) (hall y)⟩
    · rintro ⟨hacc, hall⟩
      rw [hacc, hall x (Or.inl rfl)]
      exact ⟨rfl, fun y hy => hall y (Or.inr hy)⟩

theorem zipWith_xor_all_zero :
    ∀ (a b : Bytes), a.length = b.length →
      (∀ x ∈ List.zipWith (fun x y => x ^^^ y) a b, x = 0) → a = b := by
  intro a
  induction a with
  | nil =>
    intro b hlen _
    exact (List.length_eq_zero.mp hlen.symm).symm
  | cons x xs ih =>
    intro b hlen hall
    cases b with
    | nil => exact absurd hlen (by simp)
    | cons y ys =>
      simp only [List.zipWith_cons_cons, List.mem_cons] at hall
      have hxy : x ^^^ y = 0 := hall _ (Or.inl rfl)
      rw [Nat.xor_eq_zero] at hxy
      rw [hxy, ih ys (by simpa using hlen) (fun v hv => hall v (Or.inr hv))]

theorem mem_zipWith_xor_self (b : Bytes) :
    ∀ x ∈ List.zipWith (fun x y => x ^^^ y) b b, x = 0 := by
  induction b with
  | nil => simp
  | cons y ys ih =>
    simp only [List.zipWith_cons_cons, List.mem_cons]
    rintro x (rfl | hx)
    · exact Nat.xor_self y
    · exact ih x hx

/-- hmac.Equal is functionally plain equality of the byte sequences. -/
theorem constantTimeCompare_eq_true_iff (a b : Bytes) :
    constantTimeCompare a b = true ↔ a = b := by
  rw [constantTimeCompare]
  constructor
  · intro h
    split at h
    · exact absurd h (by simp)
    · next hlen =>
      rw [not_not] at hlen
      simp only [decide_eq_true_eq, foldl_lor_eq_zero] at h
      exact zipWith_xor_all_zero a b hlen h.2
  · rintro rfl
    rw [if_neg (by simp)]
    simp only [decide_eq_true_eq, foldl_lor_eq_zero]
    exact ⟨trivial, mem_zipWith_xor_self a⟩

/-! ## Base64 (Go encoding/base64 RawURLEncoding: URL-safe alphabet, no
padding), query escaping and query parsing (Go net/url), restricted to the
per-character treatment of the ASCII strings this subsystem produces. -/

/-- The URL-safe base64 alphabet. -/
def b64Alphabet : Str :=
  ("ABCDEFGHIJKLMNOPQRSTUVWXYZabcdefghijklmnopqrstuvwxyz0123456789-_").toList

def b64Char (n : ℕ) : Char := b64Alphabet.getD n 'A'

def b64Index (c : Char) : Option ℕ := b64Alphabet.findIdx? (· = c)

/-- RawURLEncoding.EncodeToString: three bytes to four characters, with the
unpadded one- and two-byte tails. -/
def base64urlEncode : Bytes → Str
  | [] => []
  | [a] => [b64Char ((a >>> 2) % 64), b64Char ((a <<< 4) % 64)]
  | [a, b] =>
    [b64Char ((a >>> 2) % 64), b64Char (((a <<< 4) ||| (b >>> 4)) % 64),
     b64Char ((b <<< 2) % 64)]
  | a :: b :: c :: rest =>
    [b64Char ((a >>> 2) % 64), b64Char (((a <<< 4) ||| (b >>> 4)) % 64),
     b64Char (((b <<< 2) ||| (c >>> 6)) % 64), b64Char (c % 64)] ++
      base64urlEncode rest

/-- RawURLEncoding.DecodeString: groups of four characters to three bytes,
tails of two or three characters to one or two bytes, a lone trailing
character or an out-of-alphabet character being an error. -/
def base64urlDecode : Str → Option Bytes
  | [] => some []
  | [_] => none
  | [c1, c2] => do
    let v1 ← b64Index c1
    let v2 ← b64Index c2
    some [((v1 <<< 2) ||| (v2 >>> 4)) % 256]
  | [c1, c2, c3] => do
    let v1 ← b64Index c1
    let v2 ← b64Index c2
    let v3 ← b64Index c3
    some [((v1 <<< 2) ||| (v2 >>> 4)) % 256, ((v2 <<< 4) ||| (v3 >>> 2)) % 256]
  | c1 :: c2 :: c3 :: c4 :: rest => do
    let v1 ← b64Index c1
    let v2 ← b64Index c2
    let v3 ← b64Index c3
    let v4 ← b64Index c4
    let tail ← base64urlDecode rest
    some (((v1 <<< 2) ||| (v2 >>> 4)) % 256 :: ((v2 <<< 4) ||| (v3 >>> 2)) % 256 ::
      ((v3 <<< 6) ||| v4) % 256 :: tail)

/-- Characters Go's query escaping leaves untouched (shouldEscape:
alphanumerics and -, _, ., ~), written over byte values as Go checks
them. -/
def unreservedQueryChar (c : Char) : Bool :=
  (48 ≤ c.toNat && c.toNat ≤ 57) || (65 ≤ c.toNat && c.toNat ≤ 90) ||
    (97 ≤ c.toNat && c.toNat ≤ 122) ||
    c = '-' || c = '_' || c = '.' || c = '~'

theorem b64Index_b64Char : ∀ v < 64, b64Index (b64Char v) = some v := by decide

theorem unreserved_b64Char : ∀ v < 64, unreservedQueryChar (b64Char v) = true := by
  decide

theorem b64Index_b64Char_mod (v : ℕ) : b64Index (b64Char (v % 64)) = some (v % 64) :=
  b64Index_b64Char _ (Nat.mod_lt _ (by omega))

theorem unreserved_b64Char_mod (v : ℕ) : unreservedQueryChar (b64Char (v % 64)) = true :=
  unreserved_b64Char _ (Nat.mod_lt _ (by omega))

theorem base64urlDecode_base64urlEncode :
    ∀ bs : Bytes, (base64urlDecode (base64urlEncode bs)).isSome = true
  | [] => rfl
  | [a] => by
    simp [base64urlEncode, base64urlDecode, b64Index_b64Char_mod]
  | [a, b] => by
    simp [base64urlEncode, base64urlDecode, b64Index_b64Char_mod]
  | a :: b :: c :: d :: rest => by
    have ih := base64urlDecode_base64urlEncode (d :: rest)
    obtain ⟨out, hout⟩ := Option.isSome_iff_exists.mp ih
    simp [base64urlEncode, base64urlDecode, b64Index_b64Char_mod, hout]
  | [a, b, c] => by
    simp [base64urlEncode, base64urlDecode, b64Index_b64Char_mod]

theorem base64urlEncode_unreserved (bs : Bytes) :
    ∀ c ∈ base64urlEncode bs, unreservedQueryChar c = true := by
  induction bs using base64urlEncode.induct with
  | case1 =>
    intro c hc
    exact absurd hc (by simp [base64urlEncode])
  | case2 a =>
    intro c hc
    simp only [base64urlEncode, List.mem_cons, List.not_mem_nil, or_false] at hc
    rcases hc with rfl | rfl <;> exact unreserved_b64Char_mod _
  | case3 a b =>
    intro c hc
    simp only [base64urlEncode, List.mem_cons, List.not_mem_nil, or_false] at hc
    rcases hc with rfl | rfl | rfl <;> exact unreserved_b64Char_mod _
  | case4 a b c rest ih =>
    intro d hd
    simp only [base64urlEncode, List.cons_append, List.nil_append,
      List.mem_cons] at hd
    rcases hd with rfl | rfl | rfl | rfl | hd
    · exact unreserved_b64Char_mod _
    · exact unreserved_b64Char_mod _
    · exact unreserved_b64Char_mod _
    · exact unreserved_b64Char_mod _
    · exact ih d hd

/-- Uppercase hexadecimal digit character, as Go's escaping writes it. -/
def hexUpperDigit (n : ℕ) : Char := if n < 10 then digitChar n else Char.ofNat (55 + n)

/-- Model of url.QueryEscape on ASCII text: alphanumerics and -, _, ., ~
pass through, space becomes '+', anything else becomes %XX. -/
def queryEscape (s : Str) : Str :=
  s.foldr
    (fun c acc =>
      (if unreservedQueryChar c then [c]
       else if c = ' ' then ['+']
       else ['%', hexUpperDigit (c.toNat / 16 % 16), hexUpperDigit (c.toNat % 16)]) ++
        acc)
    []

def hexDigitVal (c : Char) : Option ℕ :=
  if 48 ≤ c.toNat ∧ c.toNat ≤ 57 then some (c.toNat - 48)
  else if 65 ≤ c.toNat ∧ c.toNat ≤ 70 then some (c.toNat - 55)
  else if 97 ≤ c.toNat ∧ c.toNat ≤ 102 then some (c.toNat - 87)
  else none

/-- Model of use of url.QueryUnescape on query components: '+' becomes a
space, a '%' must head two hexadecimal digits, anything else passes
through. -/
def queryUnescape : Str → Option Str
  | [] => some []
  | c :: rest =>
    if c = '%' then
      match rest with
      | h1 :: h2 :: rest2 => do
        let d1 ← hexDigitVal h1
        let d2 ← hexDigitVal h2
        let tail ← queryUnescape rest2
        some (Char.ofNat (d1 * 16 + d2) :: tail)
      | _ => none
    else do
      let tail ← queryUnescape rest
      some ((if c = '+' then ' ' else c) :: tail)

theorem unreservedQueryChar_ne {c : Char} (h : unreservedQueryChar c = true) :
    c ≠ '&' ∧ c ≠ '=' ∧ c ≠ ';' ∧ c ≠ '?' ∧ c ≠ '%' ∧ c ≠ '+' ∧ c ≠ '/' ∧ c ≠ ' ' := by
  refine ⟨?_, ?_, ?_, ?_, ?_, ?_, ?_, ?_⟩ <;>
    · intro he
      rw [he] at h
      exact absurd h (by decide)

theorem queryEscape_unreserved {s : Str}
    (h : ∀ c ∈ s, unreservedQueryChar c = true) : queryEscape s = s := by
  induction s with
  | nil => rfl
  | cons c rest ih =>
    have hc := h c (List.mem_cons_self c rest)
    have hrest : ∀ c ∈ rest, unreservedQueryChar c = true :=
      fun x hx => h x (List.mem_cons_of_mem c hx)
    simp only [queryEscape, List.foldr_cons, hc, if_true]
    exact congrArg (c :: ·) (ih hrest)

theorem queryUnescape_unreserved {s : Str}
    (h : ∀ c ∈ s, unreservedQueryChar c = true) : queryUnescape s = some s := by
  induction s with
  | nil => rfl
  | cons c rest ih =>
    have hc := h c (List.mem_cons_self c rest)
    have hrest := ih fun x hx => h x (List.mem_cons_of_mem c hx)
    have hne := unreservedQueryChar_ne hc
    rcases rest with - | ⟨c2, rest2⟩
    · rw [queryUnescape, if_neg hne.2.2.2.2.1, hrest, Option.bind_eq_bind',
        Option.some_bind, if_neg hne.2.2.2.2.2.1]
      intro h1 h2 r2 hcontra
      cases hcontra
    · rcases rest2 with - | ⟨c3, rest3⟩
      · rw [queryUnescape, if_neg hne.2.2.2.2.1, hrest, Option.bind_eq_bind',
          Option.some_bind, if_neg hne.2.2.2.2.2.1]
        intro h1 h2 r2 hcontra
        cases hcontra
      · rw [queryUnescape, if_neg hne.2.2.2.2.1, hrest, Option.bind_eq_bind',
          Option.some_bind, if_neg hne.2.2.2.2.2.1]

/-- Bytewise lexicographic string order, as Go's sort.Strings compares. -/
def strLe : Str → Str → Bool
  | [], _ => true
  | _ :: _, [] => false
  | a :: as, b :: bs => if a = b then strLe as bs else decide (a.toNat < b.toNat)

def insertSorted (p : Str × Str) : List (Str × Str) → List (Str × Str)
  | [] => [p]
  | q :: rest => if strLe p.1 q.1 then p :: q :: rest else q :: insertSorted p rest

/-- Sorting of query keys performed inside url.Values.Encode. -/
def sortByKey (l : List (Str × Str)) : List (Str × Str) := l.foldr insertSorted []

/-- Model of url.Values.Encode for single-valued keys: keys sorted, each
pair escaped and written k=v, pairs joined with '&'. -/
def encodeValues (v : List (Str × Str)) : Str :=
  List.intercalate ['&'] ((sortByKey v).map fun p => queryEscape p.1 ++ '=' :: queryEscape p.2)

/-- One '&'-separated segment of a query string: skip it if empty or
containing ';', cut at the first '=', unescape both halves, skip on
unescape failure. -/
def parseQuerySegment (kv : Str) : Option (Str × Str) :=
  if kv = [] then none
  else if kv.contains ';' then none
  else
    let r := cut '=' kv
    match queryUnescape r.1, queryUnescape r.2.1 with
    | some k, some v => some (k, v)
    | _, _ => none

/-- Model of url.Values parsing (url.URL.Query, whose errors Go discards):
split at '&' and handle each segment. -/
def parseQuery (s : Str) : List (Str × Str) :=
  (s.splitOn '&').filterMap parseQuerySegment

/-- url.Values.Get: the value of the first pair with the given key, or the
empty string. -/
def queryGet (ps : List (Str × Str)) (k : Str) : Str :=
  match ps.find? fun p => p.1 == k with
  | some p => p.2
  | none => []

/-- The two components of a parsed URL that fromURL consumes. -/
structure GoURL where
  path : Str
  rawQuery : Str
deriving DecidableEq

/-- Model of url.Parse restricted to the scheme-less path?query strings that
request.url produces (no host, fragment, or percent-escapes in the path):
the first '?' separates path from raw query. -/
def parseURLString (s : Str) : GoURL :=
  let r := cut '?' s
  ⟨r.1, r.2.1⟩

/-- A well-formed query pair: nonempty key, both halves made of characters
that query escaping leaves alone. -/
def goodPair (p : Str × Str) : Prop :=
  p.1 ≠ [] ∧ (∀ c ∈ p.1, unreservedQueryChar c = true) ∧
    (∀ c ∈ p.2, unreservedQueryChar c = true)

theorem mem_insertSorted {p q : Str × Str} :
    ∀ {l : List (Str × Str)}, q ∈ insertSorted p l ↔ q = p ∨ q ∈ l := by
  intro l
  induction l with
  | nil => simp [insertSorted]
  | cons x rest ih =>
    rw [insertSorted]
    split
    · simp
    · simp only [List.mem_cons, ih]
      tauto

theorem mem_sortByKey {q : Str × Str} {l : List (Str × Str)} :
    q ∈ sortByKey l ↔ q ∈ l := by
  induction l with
  | nil => simp [sortByKey]
  | cons x rest ih =>
    rw [sortByKey, List.foldr_cons, mem_insertSorted]
    rw [sortByKey] at ih
    rw [ih, List.mem_cons]

theorem parseQuerySegment_good {p : Str × Str} (hp : goodPair p) :
    parseQuerySegment (p.1 ++ '=' :: p.2) = some p := by
  rw [parseQuerySegment]
  obtain ⟨hk, hkc, hvc⟩ := hp
  have hkne : p.1 ++ '=' :: p.2 ≠ [] := by
    cases h : p.1 ++ '=' :: p.2 with
    | nil => exact absurd h (by simp)
    | cons a l => simp
  rw [if_neg hkne]
  have hsemi : (p.1 ++ '=' :: p.2).contains ';' = false := by
    rw [List.contains_eq_any_beq]
    rw [List.any_eq_false]
    intro c hc
    rcases List.mem_append.mp hc with h | h
    · have := (unreservedQueryChar_ne (hkc c h)).2.2.1
      exact fun he => this (eq_of_beq he).symm
    · rcases List.mem_cons.mp h with rfl | h
      · decide
      · have := (unreservedQueryChar_ne (hvc c h)).2.2.1
        exact fun he => this (eq_of_beq he).symm
  rw [hsemi]
  simp only [Bool.false_eq_true, if_false]
  have hcut : cut '=' (p.1 ++ '=' :: p.2) = (p.1, p.2, true) :=
    cut_append '=' p.1 p.2 fun hm => (unreservedQueryChar_ne (hkc '=' hm)).2.1 rfl
  rw [hcut]
  simp only [queryUnescape_unreserved hkc, queryUnescape_unreserved hvc]

theorem filterMap_of_forall_some {α : Type} (f : α → Option α) :
    ∀ l : List α, (∀ p ∈ l, f p = some p) → l.filterMap f = l := by
  intro l
  induction l with
  | nil => exact fun _ => rfl
  | cons x rest ih =>
    intro h
    rw [List.filterMap_cons, h x (List.mem_cons_self x rest),
      ih fun p hp => h p (List.mem_cons_of_mem x hp)]

theorem parseQuery_encodeValues (v : List (Str × Str))
    (hv : ∀ p ∈ v, goodPair p) (hne : v ≠ []) :
    parseQuery (encodeValues v) = sortByKey v := by
  have hs : ∀ p ∈ sortByKey v, goodPair p := fun p hp => hv p (mem_sortByKey.mp hp)
  have hsne : sortByKey v ≠ [] := by
    cases v with
    | nil => exact absurd rfl hne
    | cons x rest =>
      intro hcontra
      have : x ∈ sortByKey (x :: rest) := mem_sortByKey.mpr (List.mem_cons_self x rest)
      rw [hcontra] at this
      exact absurd this (List.not_mem_nil x)
  rw [parseQuery, encodeValues]
  have hmap : (sortByKey v).map (fun p => queryEscape p.1 ++ '=' :: queryEscape p.2)
      = (sortByKey v).map (fun p => p.1 ++ '=' :: p.2) := by
    refine List.map_congr_left fun p hp => ?_
    obtain ⟨-, hkc, hvc⟩ := hs p hp
    rw [queryEscape_unreserved hkc, queryEscape_unreserved hvc]
  rw [hmap]
  have hx : ∀ l ∈ (sortByKey v).map (fun p => p.1 ++ '=' :: p.2), '&' ∉ l := by
    intro l hl
    obtain ⟨p, hp, rfl⟩ := List.mem_map.mp hl
    obtain ⟨-, hkc, hvc⟩ := hs p hp
    intro hmem
    rcases List.mem_append.mp hmem with h | h
    · exact (unreservedQueryChar_ne (hkc '&' h)).1 rfl
    · rcases List.mem_cons.mp h with heq | h
      · exact absurd heq.symm (by decide)
      · exact (unreservedQueryChar_ne (hvc '&' h)).1 rfl
  have hls : (sortByKey v).map (fun p => p.1 ++ '=' :: p.2) ≠ [] := by
    simpa using hsne
  rw [List.splitOn_intercalate ((sortByKey v).map fun p => p.1 ++ '=' :: p.2) '&' hx hls]
  rw [List.filterMap_map]
  exact filterMap_of_forall_some _ (sortByKey v)
    fun p hp => parseQuerySegment_good (hs p hp)

/-! ## The image request protocol (src/unnamed/part_000). -/

/-- The error values of the images package, plus the distinguished
validation error "zero size requires a non-empty image fit" created inline
in fromURL. -/
inductive GoErr where
  | imageNotFound
  | storeNotRegistered
  | badURL
  | imageFormatUnsupported
  | imageFitUnsupported
  | zeroSizeFit
  | storeNotFound
  | decodeErr
  | backendErr (tag : ℕ)
deriving DecidableEq

/-- An incoming request for an image (struct request, part_000 lines
358-365). -/
structure Request where
  id : UID
  size : ImageSize
  fit : ImageFit
  format : ImageFormat
  hash : Bytes
deriving DecidableEq

/-- Bytes of an ASCII string, as Go's []byte conversion produces. -/
def strBytes (s : Str) : Bytes := s.map Char.toNat

/-- hashData (part_000 lines 422-431): the id's string form, the size's
string form (possibly "0"), the fit only when the size is non-zero, and the
extension with its leading dot. -/
def hashData (r : Request) : Str :=
  uidString r.id ++ r.size.string ++
    (if r.size.zero then ([] : Str) else r.fit) ++ extension r.format

/-- computeHash (part_000 lines 416-420); the process-wide HMACKey is the
explicit `key` argument, `none` standing for Go's nil slice (which
crypto/hmac treats as an empty key). -/
def computeHash (key : Option Bytes) (r : Request) : Bytes :=
  hmacSha256 (key.getD []) (strBytes (hashData r))

/-- valid (part_000 lines 411-413): hmac.Equal of the freshly computed hash
against the hash supplied in the URL. -/
def Request.valid (key : Option Bytes) (r : Request) : Bool :=
  constantTimeCompare (computeHash key r) r.hash

/-- Modelled from the spec: idToFolder (in the part of the images package
not under src/) names the sharded folder by a prefix of the id and derives
the per-id filename stem of the stored original and its cached variants,
distinct ids giving distinct stems (spec: cache filenames are
"(id-derived-stem)_(size)_(fit).(ext)" and differ whenever any parameter
differs). -/
def idToFolder (id : UID) : Str × Str := ((uidString id).take 2, uidString id)

/-- filename (part_000 lines 435-449): the id stem, then when the size is
non-zero an "_size" part and an "_fit" part (the default fit standing in for
an unspecified one), then the extension. -/
def Request.filename (r : Request) : Str :=
  let s := (idToFolder r.id).2
  let s :=
    if r.size.zero = false then
      let s1 := s ++ '_' :: r.size.string
      if r.fit = [] then s1 ++ '_' :: ImageFitDefault else s1 ++ '_' :: r.fit
    else s
  s ++ extension r.format

/-- url (part_000 lines 453-469): size and fit query parameters only for a
non-zero size, a sig parameter only when a signing key is configured, the
query string sorted and escaped by url.Values.Encode. -/
def Request.url (key : Option Bytes) (r : Request) : Str :=
  let v : List (Str × Str) := []
  let v :=
    if r.size.zero = false then
      v ++ [(("size").toList, r.size.string), (("fit").toList, r.fit)]
    else v
  let v :=
    match key with
    | some _ => v ++ [(("sig").toList, base64urlEncode (computeHash key r))]
    | none => v
  let search := if 0 < v.length then '?' :: encodeValues v else []
  uidString r.id ++ extension r.format ++ search

/-- fromURL (part_000 lines 367-408), including its guard
`!r.size.Zero() && r.fit == ""` exactly as the source states it. -/
def fromURL (u : GoURL) : Except GoErr Request :=
  let parts := u.path.splitOn '/'
  if parts = [] then Except.error GoErr.badURL
  else
    let r0 := cut '.' (parts.getLastD [])
    if r0.2.2 = false then Except.error GoErr.badURL
    else
      match uidFromString r0.1 with
      | none => Except.error GoErr.badURL
      | some id =>
        let format : ImageFormat := r0.2.1
        if formatValid format = false then Except.error GoErr.imageFormatUnsupported
        else
          let query := parseQuery u.rawQuery
          let sizeStr := queryGet query (("size").toList)
          let sizeRes : Option ImageSize :=
            if sizeStr = [] then some ⟨0, 0⟩ else ImageSize.unmarshalText sizeStr
          match sizeRes with
          | none => Except.error GoErr.badURL
          | some size =>
            let fit : ImageFit := queryGet query (("fit").toList)
            if fit ≠ [] ∧ fitSupported fit = false then
              Except.error GoErr.imageFitUnsupported
            else if size.zero = false ∧ fit = [] then
              Except.error GoErr.zeroSizeFit
            else
              match base64urlDecode (queryGet query (("sig").toList)) with
              | none => Except.error GoErr.badURL
              | some hash => Except.ok ⟨id, size, fit, format, hash⟩

/-! ## Records, stores, the serve path, the save path, and the delete path. -/

/-- Modelled from the spec: the persistent metadata row (type ImageRecord,
whose declaration is not under src/), restricted to the fields the serve
and delete paths consult: id, backend name, format. -/
structure ImageRecord where
  id : UID
  storeName : Str
  format : ImageFormat
deriving DecidableEq

/-- A registered storage backend (interface store, part_000 lines 90-95):
its process-unique name together with the abstract outcomes of its get,
save and delete operations. -/
structure Store where
  name : Str
  getResult : ImageRecord → Except GoErr Bytes
  saveResult : ImageRecord → Bytes → Option GoErr
  deleteResult : ImageRecord → Option GoErr

/-- matchStore (part_000 lines 79-86): the first registered store with the
given name, Go's nil (none) when there is none. -/
def matchStore (stores : List Store) (name : Str) : Option Store :=
  stores.find? fun s => s.name == name

/-- Modelled from the spec: ImageRecord.store resolves the record's named
backend against the registry (the method body is not under src/; the spec's
read path says "Resolve the named backend"). -/
def ImageRecord.store (stores : List Store) (rec : ImageRecord) : Option Store :=
  matchStore stores rec.storeName

/-- Modelled from the spec: GetImageRecord fetches the metadata row by id
and fails with NotFound when the row is absent. -/
def GetImageRecord (db : List ImageRecord) (id : UID) : Except GoErr ImageRecord :=
  match db.find? fun rec => rec.id == id with
  | some rec => Except.ok rec
  | none => Except.error GoErr.imageNotFound

/-- Modelled from the spec: the root directory of the filesystem store and
cache (filesRootFolder is defined in the part of the package not under
src/). -/
def filesRootFolder : Str := ("images").toList

/-- path.Join of three nonempty clean segments. -/
def pathJoin3 (a b c : Str) : Str := a ++ '/' :: b ++ '/' :: c

/-- cacheFilepath (part_000 lines 471-476). -/
def cacheFilepath (r : Request) : Str :=
  pathJoin3 filesRootFolder (idToFolder r.id).1 r.filename

/-- The filesystem and database state the serve path touches: the cache
directory as a map from file path to contents, the images table, and the
registered stores. -/
structure ServeState where
  cache : List (Str × Bytes)
  db : List ImageRecord
  stores : List Store

/-- getCachedImage (part_000 lines 478-480): a read of the cache file, a
missing entry being the os.IsNotExist cache miss. -/
def getCachedImage (st : ServeState) (r : Request) : Option Bytes :=
  (st.cache.find? fun p => p.1 == cacheFilepath r).map fun p => p.2

/-- The part of getImage after the cache check (part_000 lines 542-558):
load the record, resolve its store, fetch the original bytes and return
them unchanged ("For now, we'll just return the original image without any
processing"), leaving the state untouched. -/
def getImageUncached (st : ServeState) (r : Request) :
    Except GoErr Bytes × ServeState :=
  match GetImageRecord st.db r.id with
  | Except.error e => (Except.error e, st)
  | Except.ok record =>
    match ImageRecord.store st.stores record with
    | none => (Except.error GoErr.storeNotFound, st)
    | some s =>
      match s.getResult record with
      | Except.error e => (Except.error e, st)
      | Except.ok image => (Except.ok image, st)

/-- getImage (part_000 lines 530-559): serve from cache when enabled and
present; a miss or disabled cache falls through to the uncached path. -/
def getImage (st : ServeState) (r : Request) (cacheEnabled : Bool) :
    Except GoErr Bytes × ServeState :=
  if cacheEnabled then
    match getCachedImage st r with
    | some image => (Except.ok image, st)
    | none => getImageUncached st r
  else getImageUncached st r

/-- ImageOptions (part_000 lines 562-566). -/
structure ImageOptions where
  width : ℤ
  height : ℤ
  format : ImageFormat
  fit : ImageFit

/-- The environment determining a SaveImage call's outcome: the registry,
the decoder's verdict on the uploaded bytes, the fallible transaction
steps, the id the call mints, and the rows the follow-up read sees. -/
structure SaveEnv where
  stores : List Store
  decodeResult : Bytes → Option (ℕ × ℕ)
  beginTxErr : Option GoErr
  insertErr : Option GoErr
  commitErr : Option GoErr
  newID : UID
  db : List ImageRecord

/-- SaveImageTx (part_000 lines 597-647): default options, decode the
bytes (failing the operation on undecodable input), resolve the store
(ErrStoreNotRegistered when absent), insert the row, hand the bytes to the
store. -/
def SaveImageTx (env : SaveEnv) (storeName : Str) (file : Bytes)
    (opts : Option ImageOptions) : Except GoErr UID :=
  let opts := opts.getD ⟨0, 0, ImageFormatJPEG, []⟩
  match env.decodeResult file with
  | none => Except.error GoErr.decodeErr
  | some _dims =>
    match matchStore env.stores storeName with
    | none => Except.error GoErr.storeNotRegistered
    | some s =>
      match env.insertErr with
      | some e => Except.error e
      | none =>
        match s.saveResult ⟨env.newID, storeName, opts.format⟩ file with
        | some e => Except.error e
        | none => Except.ok env.newID

/-- SaveImage (part_000 lines 571-590), including its `return nil, nil`
when BeginTx fails, exactly as the source states it; the pair is Go's
(record, error) return. -/
def SaveImage (env : SaveEnv) (storeName : Str) (file : Bytes)
    (opts : Option ImageOptions) : Option ImageRecord × Option GoErr :=
  match env.beginTxErr with
  | some _ => (none, none)
  | none =>
    match SaveImageTx env storeName file opts with
    | Except.error e => (none, some e)
    | Except.ok id =>
      match env.commitErr with
      | some e => (none, some e)
      | none =>
        match GetImageRecord env.db id with
        | Except.ok rec => (some rec, none)
        | Except.error e => (none, some e)

/-- Outcome of the delete path: success, a returned Go error, or the
runtime panic a nil interface dereference causes. -/
inductive DeleteOutcome where
  | ok
  | err (e : GoErr)
  | nilStoreDeref
deriving DecidableEq

/-- The per-record loop of DeleteImagesTx (part_000 lines 655-659): the
store lookup's result is dereferenced without a nil check, so an
unregistered store name is a runtime panic, not an error return. -/
def deleteRecordsLoop (stores : List Store) : List ImageRecord → DeleteOutcome
  | [] => DeleteOutcome.ok
  | rec :: rest =>
    match ImageRecord.store stores rec with
    | none => DeleteOutcome.nilStoreDeref
    | some s =>
      match s.deleteResult rec with
      | some e => DeleteOutcome.err e
      | none => deleteRecordsLoop stores rest

/-- Modelled from the spec: GetImageRecords fetches the metadata rows of a
batch of ids (the function body is not under src/). -/
def GetImageRecords (db : List ImageRecord) (ids : List UID) : List ImageRecord :=
  db.filter fun rec => ids.contains rec.id

/-- DeleteImagesTx (part_000 lines 649-675): fetch the records and run the
delete loop; the subsequent best-effort cache removal and the SQL delete do
not change the outcome modelled here. -/
def DeleteImagesTx (stores : List Store) (db : List ImageRecord)
    (ids : List UID) : DeleteOutcome :=
  deleteRecordsLoop stores (GetImageRecords db ids)

/-! ## Geometry and color (ImageContainSize, AverageColor). -/

/-- Truncation of a rational toward zero: the behavior of Go's conversion
from float64 to int on in-range values. -/
def ratTrunc (q : ℚ) : ℤ := if q < 0 then -⌊-q⌋ else ⌊q⌋

/-- ImageContainSize (part_000 lines 306-321); the float64 arithmetic is
modelled by exact rational arithmetic, with which it coincides on
dimensions inside float64's exactly-representable integer range. -/
def ImageContainSize (imageWidth imageHeight boxWidth boxHeight : ℤ) : ℤ × ℤ :=
  let x : ℚ := imageWidth
  let y : ℚ := imageHeight
  let p :=
    if boxWidth < imageWidth then
      let scale : ℚ := (boxWidth : ℚ) / (imageWidth : ℚ)
      (scale * (imageWidth : ℚ), scale * (imageHeight : ℚ))
    else (x, y)
  let p2 :=
    if (boxHeight : ℚ) < p.2 then
      let scale : ℚ := (boxHeight : ℚ) / p.2
      (scale * p.1, scale * p.2)
    else p
  (ratTrunc p2.1, ratTrunc p2.2)

/-- An abstract decoded image: the bounds' width and height, and a pixel
function giving the four RGBA channel values of image/color (each in
0..65535). -/
structure GoImage where
  width : ℕ
  height : ℕ
  pixel : ℕ → ℕ → ℕ × ℕ × ℕ × ℕ

/-- The positions 0, s, 2s, ... strictly below width that a stepped Go for
loop visits. -/
def samplePoints (width steps : ℕ) : List ℕ :=
  (List.range ((width + steps - 1) / steps)).map (· * steps)

/-- The loop body of AverageColor: each channel of the sample is blended
50/50 into its accumulator. -/
def avgStep (img : GoImage) (acc : ℚ × ℚ × ℚ) (p : ℕ × ℕ) : ℚ × ℚ × ℚ :=
  let c := img.pixel p.1 p.2
  ((acc.1 + (c.1 : ℚ)) / 2, (acc.2.1 + (c.2.1 : ℚ)) / 2,
    (acc.2.2 + (c.2.2.1 : ℚ)) / 2)

/-- AverageColor (part_000 lines 325-356): strides floor(w/100) and
floor(h/100) clamped to at least 1, a running 50/50 per-channel average
over the sampled grid (i outer, j inner), and a final normalization guarded
by x > 0, an all-zero accumulation yielding the zero RGB value. -/
def AverageColor (img : GoImage) : RGB :=
  let xsteps := if img.width / 100 ≤ 0 then 1 else img.width / 100
  let ysteps := if img.height / 100 ≤ 0 then 1 else img.height / 100
  let pts := (samplePoints img.width xsteps).flatMap fun i =>
    (samplePoints img.height ysteps).map fun j => (i, j)
  let acc := pts.foldl (avgStep img) (0, 0, 0)
  let x := acc.1 + acc.2.1 + acc.2.2
  if 0 < x then
    ⟨(ratTrunc (acc.1 / x * 255)).toNat % 4294967296,
     (ratTrunc (acc.2.1 / x * 255)).toNat % 4294967296,
     (ratTrunc (acc.2.2 / x * 255)).toNat % 4294967296⟩
  else ⟨0, 0, 0⟩

/-! ## Character-class bridges and evaluation helpers. -/

theorem unreserved_of_ranges {c : Char}
    (h : (48 ≤ c.toNat ∧ c.toNat ≤ 57) ∨ (97 ≤ c.toNat ∧ c.toNat ≤ 122)) :
    unreservedQueryChar c = true := by
  rcases h with ⟨h1, h2⟩ | ⟨h1, h2⟩
  · simp [unreservedQueryChar, eq_true h1, eq_true h2]
  · simp [unreservedQueryChar, eq_true h1, eq_true h2]

theorem isLowerHexChar_unreserved {c : Char} (h : isLowerHexChar c = true) :
    unreservedQueryChar c = true := by
  simp only [isLowerHexChar, Bool.or_eq_true, Bool.and_eq_true,
    decide_eq_true_eq] at h
  refine unreserved_of_ranges ?_
  rcases h with ⟨h1, h2⟩ | ⟨h1, h2⟩
  · exact Or.inl ⟨h1, h2⟩
  · exact Or.inr ⟨h1, by omega⟩

theorem isDigitChar_unreserved {c : Char} (h : isDigitChar c = true) :
    unreservedQueryChar c = true := by
  simp only [isDigitChar, Bool.and_eq_true, decide_eq_true_eq] at h
  exact unreserved_of_ranges (Or.inl h)

theorem itoa_unreserved (z : ℤ) : ∀ c ∈ itoa z, unreservedQueryChar c = true := by
  rw [itoa]
  split
  · intro c hc
    rcases List.mem_cons.mp hc with rfl | hc
    · decide
    · exact isDigitChar_unreserved (natToChars_all_digits _ _ hc)
  · exact fun c hc => isDigitChar_unreserved (natToChars_all_digits _ _ hc)

theorem sizeString_unreserved (s : ImageSize) :
    ∀ c ∈ s.string, unreservedQueryChar c = true := by
  rw [ImageSize.string]
  split
  · exact itoa_unreserved _
  · intro c hc
    rcases List.mem_append.mp hc with h | h
    · exact itoa_unreserved _ c h
    · rcases List.mem_cons.mp h with rfl | h
      · decide
      · exact itoa_unreserved _ c h

theorem uid_unreserved (id : UID) :
    ∀ c ∈ uidString id, unreservedQueryChar c = true :=
  fun c hc => isLowerHexChar_unreserved (uid_chars_hex id c hc)

theorem formatValid_cases {f : ImageFormat} (h : formatValid f = true) :
    f = ImageFormatJPEG ∨ f = ImageFormatWEBP ∨ f = ImageFormatPNG := by
  rw [formatValid] at h
  exact of_decide_eq_true h

theorem fitSupported_cases {f : ImageFit} (h : fitSupported f = true) :
    f = ImageFitCover ∨ f = ImageFitContain := by
  rw [fitSupported] at h
  exact of_decide_eq_true h

theorem splitOn_of_not_mem {c : Char} {l : Str} (h : c ∉ l) :
    l.splitOn c = [l] := by
  refine List.splitOnP_eq_single _ _ fun x hx => ?_
  intro hbeq
  exact h (eq_of_beq hbeq ▸ hx)

/-- A concrete image id used by the concrete evaluations below. -/
def idA : UID := ⟨("aaaaaaaaaaaaaaaaaaaaaaaa").toList, by decide⟩

instance {ε α : Type} [DecidableEq ε] [DecidableEq α] : DecidableEq (Except ε α) :=
  fun a b =>
  match a, b with
  | .error e1, .error e2 =>
    if h : e1 = e2 then isTrue (by rw [h]) else isFalse (by simp [h])
  | .error _, .ok _ => isFalse (by simp)
  | .ok _, .error _ => isFalse (by simp)
  | .ok v1, .ok v2 =>
    if h : v1 = v2 then isTrue (by rw [h]) else isFalse (by simp [h])

/-! ## C1: signature validation. -/

/-- C1: the validity check succeeds if and only if the supplied signature
constant-time-equals the HMAC-SHA-256, under the process-wide key, of the
concatenation of the id's canonical string form, the size's canonical
string form, the fit string taken as empty whenever the size is zero, and
the format's extension including the leading dot. -/
theorem valid_iff_hmac_of_canonical_payload (key : Option Bytes) (r : Request) :
    r.valid key = true ↔
      constantTimeCompare r.hash
        (hmacSha256 (key.getD [])
          (strBytes (uidString r.id ++ r.size.string ++
            (if r.size.zero then ([] : Str) else r.fit) ++ extension r.format)))
        = true := by
  rw [Request.valid, constantTimeCompare_eq_true_iff, constantTimeCompare_eq_true_iff,
    computeHash, hashData, eq_comm]

/-! ## C2 and C3: the fit guard of fromURL. -/

/-- C2 (code evidence): on a URL with a valid id, a supported extension, a
non-zero size and no fit parameter, the source's fromURL returns the
"zero size requires a non-empty image fit" error — the guard reads
`!r.size.Zero() && r.fit == ""` — instead of parsing with the default fit. -/
theorem fromURL_nonzero_size_absent_fit_is_error :
    fromURL ⟨("aaaaaaaaaaaaaaaaaaaaaaaa.jpeg").toList, ("size=300").toList⟩ =
      Except.error GoErr.zeroSizeFit := by
  decide

/-- C3 (code evidence): on a URL with no size parameter but an explicit
supported fit, the source's fromURL succeeds and returns the request,
instead of failing with a validation error as the spec states. -/
theorem fromURL_zero_size_explicit_fit_is_ok :
    fromURL ⟨("aaaaaaaaaaaaaaaaaaaaaaaa.jpeg").toList, ("fit=cover").toList⟩ =
      Except.ok ⟨idA, ⟨0, 0⟩, ImageFitCover, ImageFormatJPEG, []⟩ := by
  decide

/-! ## C4: the url/fromURL round trip. -/

theorem sizeString_ne_nil (s : ImageSize) : s.string ≠ [] := by
  rw [ImageSize.string]
  split
  · exact itoa_ne_nil _
  · cases h : itoa s.width with
    | nil => exact absurd h (itoa_ne_nil _)
    | cons c cs => simp

theorem format_no_dot {f : ImageFormat} (hfmt : formatValid f = true) : '.' ∉ f := by
  rcases formatValid_cases hfmt with rfl | rfl | rfl <;> decide

theorem path_no_slash {id : UID} {f : ImageFormat} (hfmt : formatValid f = true) :
    '/' ∉ uidString id ++ '.' :: f := by
  intro hm
  rcases List.mem_append.mp hm with h | h
  · exact (isLowerHexChar_ne (uid_chars_hex id _ h)).2.1 rfl
  · rcases List.mem_cons.mp h with heq | h
    · exact absurd heq (by decide)
    · rcases formatValid_cases hfmt with rfl | rfl | rfl <;> revert h <;> decide

theorem path_no_qmark {id : UID} {f : ImageFormat} (hfmt : formatValid f = true) :
    '?' ∉ uidString id ++ '.' :: f := by
  intro hm
  rcases List.mem_append.mp hm with h | h
  · exact (isLowerHexChar_ne (uid_chars_hex id _ h)).2.2.1 rfl
  · rcases List.mem_cons.mp h with heq | h
    · exact absurd heq (by decide)
    · rcases formatValid_cases hfmt with rfl | rfl | rfl <;> revert h <;> decide

theorem uid_no_dot (id : UID) : '.' ∉ uidString id :=
  fun hm => (isLowerHexChar_ne (uid_chars_hex id _ hm)).1 rfl

theorem parseURLString_no_query {s : Str} (h : '?' ∉ s) :
    parseURLString s = ⟨s, []⟩ := by
  rw [parseURLString, cut_not_mem '?' s h]

theorem parseURLString_append {p q : Str} (h : '?' ∉ p) :
    parseURLString (p ++ '?' :: q) = ⟨p, q⟩ := by
  rw [parseURLString, cut_append '?' p q h]

/-- Evaluation of fromURL on a well-formed path, leaving the query
processing symbolic. -/
theorem fromURL_on_path (id : UID) (format : ImageFormat) (q : Str)
    (hfmt : formatValid format = true) :
    fromURL ⟨uidString id ++ '.' :: format, q⟩ =
      (match
        (if queryGet (parseQuery q) (("size").toList) = []
         then some (⟨0, 0⟩ : ImageSize)
         else ImageSize.unmarshalText (queryGet (parseQuery q) (("size").toList))) with
       | none => Except.error GoErr.badURL
       | some size =>
         if queryGet (parseQuery q) (("fit").toList) ≠ [] ∧
             fitSupported (queryGet (parseQuery q) (("fit").toList)) = false then
           Except.error GoErr.imageFitUnsupported
         else if size.zero = false ∧ queryGet (parseQuery q) (("fit").toList) = [] then
           Except.error GoErr.zeroSizeFit
         else
           match base64urlDecode (queryGet (parseQuery q) (("sig").toList)) with
           | none => Except.error GoErr.badURL
           | some hash =>
             Except.ok ⟨id, size, queryGet (parseQuery q) (("fit").toList), format, hash⟩) := by
  rw [fromURL]
  rw [splitOn_of_not_mem (path_no_slash hfmt)]
  rw [if_neg (by simp)]
  have hlast : List.getLastD [uidString id ++ '.' :: format] ([] : Str)
      = uidString id ++ '.' :: format := rfl
  rw [hlast, cut_append '.' (uidString id) format (uid_no_dot id)]
  simp [uidFromString_uidString, hfmt]

theorem url_zero_none (id : UID) (size : ImageSize) (fit : ImageFit)
    (format : ImageFormat) (hash : Bytes) (hz : size.zero = true) :
    Request.url none ⟨id, size, fit, format, hash⟩ =
      uidString id ++ '.' :: format := by
  rw [Request.url]
  simp [hz, extension, uidString]

theorem url_zero_some (id : UID) (size : ImageSize) (fit : ImageFit)
    (format : ImageFormat) (hash : Bytes) (k : Bytes) (hz : size.zero = true) :
    Request.url (some k) ⟨id, size, fit, format, hash⟩ =
      (uidString id ++ '.' :: format) ++ '?' :: encodeValues
        [(("sig").toList,
          base64urlEncode (computeHash (some k) ⟨id, size, fit, format, hash⟩))] := by
  rw [Request.url]
  simp [hz, extension, uidString]

theorem url_nonzero_none (id : UID) (size : ImageSize) (fit : ImageFit)
    (format : ImageFormat) (hash : Bytes) (hz : size.zero = false) :
    Request.url none ⟨id, size, fit, format, hash⟩ =
      (uidString id ++ '.' :: format) ++ '?' :: encodeValues
        [(("size").toList, size.string), (("fit").toList, fit)] := by
  rw [Request.url]
  simp [hz, extension, uidString]

theorem url_nonzero_some (id : UID) (size : ImageSize) (fit : ImageFit)
    (format : ImageFormat) (hash : Bytes) (k : Bytes) (hz : size.zero = false) :
    Request.url (some k) ⟨id, size, fit, format, hash⟩ =
      (uidString id ++ '.' :: format) ++ '?' :: encodeValues
        [(("size").toList, size.string), (("fit").toList, fit),
         (("sig").toList,
          base64urlEncode (computeHash (some k) ⟨id, size, fit, format, hash⟩))] := by
  rw [Request.url]
  simp [hz, extension, uidString]

theorem sortByKey_sig (g : Str) :
    sortByKey [(("sig").toList, g)] = [(("sig").toList, g)] := rfl

theorem sortByKey_size_fit (s f : Str) :
    sortByKey [(("size").toList, s), (("fit").toList, f)]
      = [(("fit").toList, f), (("size").toList, s)] := by
  simp [sortByKey, insertSorted, strLe]

theorem sortByKey_size_fit_sig (s f g : Str) :
    sortByKey [(("size").toList, s), (("fit").toList, f), (("sig").toList, g)]
      = [(("fit").toList, f), (("sig").toList, g), (("size").toList, s)] := by
  simp [sortByKey, insertSorted, strLe]

theorem goodPair_size (s : ImageSize) : goodPair (("size").toList, s.string) := by
  refine ⟨?_, ?_, sizeString_unreserved s⟩
  · show ("size").toList ≠ []
    decide
  · show ∀ c ∈ ("size").toList, unreservedQueryChar c = true
    decide

theorem goodPair_fit {f : ImageFit} (h : fitSupported f = true) :
    goodPair (("fit").toList, f) := by
  refine ⟨?_, ?_, ?_⟩
  · show ("fit").toList ≠ []
    decide
  · show ∀ c ∈ ("fit").toList, unreservedQueryChar c = true
    decide
  · rcases fitSupported_cases h with rfl | rfl <;> decide

theorem goodPair_sig (bs : Bytes) :
    goodPair (("sig").toList, base64urlEncode bs) := by
  refine ⟨?_, ?_, base64urlEncode_unreserved bs⟩
  · show ("sig").toList ≠ []
    decide
  · show ∀ c ∈ ("sig").toList, unreservedQueryChar c = true
    decide

theorem queryGet_nil (k : Str) : queryGet [] k = [] := rfl

theorem queryGet_cons_eq {k k' v : Str} {ps : List (Str × Str)}
    (h : (k' == k) = true) : queryGet ((k', v) :: ps) k = v := by
  simp [queryGet, List.find?, h]

theorem queryGet_cons_ne {k k' v : Str} {ps : List (Str × Str)}
    (h : (k' == k) = false) : queryGet ((k', v) :: ps) k = queryGet ps k := by
  simp [queryGet, List.find?, h]

theorem parseQuery_nil : parseQuery [] = [] := rfl

theorem fitSupported_ne_nil {f : ImageFit} (h : fitSupported f = true) : f ≠ [] := by
  rcases fitSupported_cases h with rfl | rfl <;> decide

/-- Evaluation of fromURL once the parsed query, size, fit and signature
are pinned down by hypotheses. -/
theorem fromURL_eval_ok (id : UID) (format : ImageFormat) (q : Str)
    (ps : List (Str × Str)) (hfmt : formatValid format = true)
    (hps : parseQuery q = ps) (size : ImageSize)
    (hsize : (if queryGet ps (("size").toList) = []
        then some (⟨0, 0⟩ : ImageSize)
        else ImageSize.unmarshalText (queryGet ps (("size").toList))) = some size)
    (f : ImageFit) (hf : queryGet ps (("fit").toList) = f)
    (hguard1 : ¬(f ≠ [] ∧ fitSupported f = false))
    (hguard2 : ¬(size.zero = false ∧ f = []))
    (hash : Bytes)
    (hsig : base64urlDecode (queryGet ps (("sig").toList)) = some hash) :
    fromURL ⟨uidString id ++ '.' :: format, q⟩ =
      Except.ok ⟨id, size, f, format, hash⟩ := by
  rw [fromURL_on_path id format q hfmt, hps, hf]
  simp only [hsize]
  rw [if_neg hguard1, if_neg hguard2]
  simp only [hsig]

/-- C4 (amended): for every valid tuple — zero-equivalent size meaning the
zero size (0,0) with an empty fit, non-zero size carrying a supported fit,
dimensions in Go's int range — and any signing key, parsing the URL built
by the request's url() succeeds and preserves id, size, fit and format. -/
theorem fromURL_url_roundTrip (key : Option Bytes) (id : UID) (size : ImageSize)
    (fit : ImageFit) (format : ImageFormat) (hash : Bytes)
    (hfmt : formatValid format = true)
    (hzero : size.zero = true → size = ⟨0, 0⟩ ∧ fit = [])
    (hnonzero : size.zero = false → fitSupported fit = true)
    (hw : goIntRange size.width) (hh : goIntRange size.height) :
    ∃ r' : Request,
      fromURL (parseURLString (Request.url key ⟨id, size, fit, format, hash⟩)) =
        Except.ok r' ∧
      r'.id = id ∧ r'.size = size ∧ r'.fit = fit ∧ r'.format = format := by
  cases hz : size.zero with
  | true =>
    obtain ⟨hs00, hf0⟩ := hzero hz
    subst hs00
    subst hf0
    cases key with
    | none =>
      rw [url_zero_none id ⟨0, 0⟩ [] format hash (by decide)]
      rw [parseURLString_no_query (path_no_qmark hfmt)]
      refine ⟨⟨id, ⟨0, 0⟩, [], format, []⟩, ?_, rfl, rfl, rfl, rfl⟩
      exact fromURL_eval_ok id format [] [] hfmt rfl ⟨0, 0⟩ rfl [] rfl
        (by simp) (by decide) [] rfl
    | some k =>
      rw [url_zero_some id ⟨0, 0⟩ [] format hash k (by decide)]
      rw [parseURLString_append (path_no_qmark hfmt)]
      obtain ⟨out, hout⟩ := Option.isSome_iff_exists.mp
        (base64urlDecode_base64urlEncode
          (computeHash (some k) ⟨id, ⟨0, 0⟩, [], format, hash⟩))
      have hps : parseQuery (encodeValues
          [(("sig").toList,
            base64urlEncode (computeHash (some k) ⟨id, ⟨0, 0⟩, [], format, hash⟩))]) =
          [(("sig").toList,
            base64urlEncode (computeHash (some k) ⟨id, ⟨0, 0⟩, [], format, hash⟩))] := by
        rw [parseQuery_encodeValues _ ?hgood (by simp), sortByKey_sig]
        case hgood =>
          intro p hp
          rw [List.mem_singleton] at hp
          exact hp ▸ goodPair_sig _
      refine ⟨⟨id, ⟨0, 0⟩, [], format, out⟩, ?_, rfl, rfl, rfl, rfl⟩
      refine fromURL_eval_ok id format _ _ hfmt hps ⟨0, 0⟩ ?_ [] ?_
        (by simp) (by decide) out ?_
      · rw [queryGet_cons_ne (by decide), queryGet_nil]
        rfl
      · rw [queryGet_cons_ne (by decide), queryGet_nil]
      · rw [queryGet_cons_eq (by decide)]
        exact hout
  | false =>
    have hfit := hnonzero hz
    have hfitne := fitSupported_ne_nil hfit
    cases key with
    | none =>
      rw [url_nonzero_none id size fit format hash hz]
      rw [parseURLString_append (path_no_qmark hfmt)]
      have hps : parseQuery (encodeValues
          [(("size").toList, size.string), (("fit").toList, fit)]) =
          [(("fit").toList, fit), (("size").toList, size.string)] := by
        rw [parseQuery_encodeValues _ ?hgood (by simp), sortByKey_size_fit]
        case hgood =>
          intro p hp
          rcases List.mem_cons.mp hp with rfl | hp
          · exact goodPair_size size
          · rw [List.mem_singleton] at hp
            exact hp ▸ goodPair_fit hfit
      refine ⟨⟨id, size, fit, format, []⟩, ?_, rfl, rfl, rfl, rfl⟩
      refine fromURL_eval_ok id format _ _ hfmt hps size ?_ fit ?_
        (by simp [hfit]) (by simp [hfitne]) [] ?_
      · rw [queryGet_cons_ne (by decide), queryGet_cons_eq (by decide)]
        rw [if_neg (sizeString_ne_nil size), unmarshalText_string size hw hh]
      · rw [queryGet_cons_eq (by decide)]
      · rw [queryGet_cons_ne (by decide), queryGet_cons_ne (by decide), queryGet_nil]
        rfl
    | some k =>
      rw [url_nonzero_some id size fit format hash k hz]
      rw [parseURLString_append (path_no_qmark hfmt)]
      obtain ⟨out, hout⟩ := Option.isSome_iff_exists.mp
        (base64urlDecode_base64urlEncode
          (computeHash (some k) ⟨id, size, fit, format, hash⟩))
      have hps : parseQuery (encodeValues
          [(("size").toList, size.string), (("fit").toList, fit),
           (("sig").toList,
            base64urlEncode (computeHash (some k) ⟨id, size, fit, format, hash⟩))]) =
          [(("fit").toList, fit),
           (("sig").toList,
            base64urlEncode (computeHash (some k) ⟨id, size, fit, format, hash⟩)),
           (("size").toList, size.string)] := by
        rw [parseQuery_encodeValues _ ?hgood (by simp), sortByKey_size_fit_sig]
        case hgood =>
          intro p hp
          rcases List.mem_cons.mp hp with rfl | hp
          · exact goodPair_size size
          rcases List.mem_cons.mp hp with rfl | hp
          · exact goodPair_fit hfit
          rw [List.mem_singleton] at hp
          exact hp ▸ goodPair_sig _
      refine ⟨⟨id, size, fit, format, out⟩, ?_, rfl, rfl, rfl, rfl⟩
      refine fromURL_eval_ok id format _ _ hfmt hps size ?_ fit ?_
        (by simp [hfit]) (by simp [hfitne]) out ?_
      · rw [queryGet_cons_ne (by decide), queryGet_cons_ne (by decide),
          queryGet_cons_eq (by decide)]
        rw [if_neg (sizeString_ne_nil size), unmarshalText_string size hw hh]
      · rw [queryGet_cons_eq (by decide)]
      · rw [queryGet_cons_ne (by decide), queryGet_cons_eq (by decide)]
        exact hout

/-- C4 (counterexample): the valid tuple with zero-equivalent size (0,5)
and empty fit round-trips to a request whose size is (0,0), not (0,5) — the
built URL omits the size, so parsing cannot restore it. -/
theorem fromURL_url_zero_size_counterexample :
    fromURL (parseURLString
        (Request.url none ⟨idA, ⟨0, 5⟩, [], ImageFormatJPEG, []⟩)) =
      Except.ok ⟨idA, ⟨0, 0⟩, [], ImageFormatJPEG, []⟩ ∧
    (⟨0, 0⟩ : ImageSize) ≠ ⟨0, 5⟩ := by
  decide

/-- Witness for the amended round trip at a concrete input. -/
theorem fromURL_url_roundTrip_witness :
    formatValid ImageFormatJPEG = true ∧
    ((⟨300, 300⟩ : ImageSize).zero = true →
      (⟨300, 300⟩ : ImageSize) = ⟨0, 0⟩ ∧ ImageFitCover = ([] : Str)) ∧
    ((⟨300, 300⟩ : ImageSize).zero = false → fitSupported ImageFitCover = true) ∧
    goIntRange (⟨300, 300⟩ : ImageSize).width ∧
    goIntRange (⟨300, 300⟩ : ImageSize).height ∧
    (∃ r' : Request,
      fromURL (parseURLString
          (Request.url none ⟨idA, ⟨300, 300⟩, ImageFitCover, ImageFormatJPEG, []⟩)) =
        Except.ok r' ∧
      r'.id = idA ∧ r'.size = ⟨300, 300⟩ ∧ r'.fit = ImageFitCover ∧
      r'.format = ImageFormatJPEG) :=
  ⟨by decide, by decide, by decide, by decide, by decide,
   fromURL_url_roundTrip none idA ⟨300, 300⟩ ImageFitCover ImageFormatJPEG []
     (by decide) (by decide) (by decide) (by decide) (by decide)⟩

/-! ## C6: cache filename determinism and discrimination. -/

theorem uid_length (id : UID) : (uidString id).length = 24 := by
  have hp := id.property
  rw [isUIDStr] at hp
  simp only [Bool.and_eq_true, decide_eq_true_eq] at hp
  exact hp.1

theorem uidString_injective {a b : UID} (h : uidString a = uidString b) : a = b :=
  Subtype.ext h

theorem isDigitChar_ne_underscore {c : Char} (h : isDigitChar c = true) : ¬ c = '_' := by
  intro he
  rw [he] at h
  exact absurd h (by decide)

theorem itoa_chars (z : ℤ) : ∀ c ∈ itoa z, isDigitChar c = true ∨ c = '-' := by
  rw [itoa]
  split
  · intro c hc
    rcases List.mem_cons.mp hc with rfl | hc
    · exact Or.inr rfl
    · exact Or.inl (natToChars_all_digits _ _ hc)
  · exact fun c hc => Or.inl (natToChars_all_digits _ _ hc)

theorem sizeString_no_underscore (s : ImageSize) : '_' ∉ s.string := by
  rw [ImageSize.string]
  intro hm
  split at hm
  · rcases itoa_chars _ _ hm with h | h
    · exact isDigitChar_ne_underscore h rfl
    · exact absurd h (by decide)
  · rcases List.mem_append.mp hm with h | h
    · rcases itoa_chars _ _ h with h | h
      · exact isDigitChar_ne_underscore h rfl
      · exact absurd h (by decide)
    · rcases List.mem_cons.mp h with h | h
      · exact absurd h (by decide)
      · rcases itoa_chars _ _ h with h | h
        · exact isDigitChar_ne_underscore h rfl
        · exact absurd h (by decide)

/-- The effective fit the filename embeds: the default stands in for an
unspecified fit. -/
def resolveFit (f : ImageFit) : ImageFit := if f = [] then ImageFitDefault else f

/-- A fit as fromURL can produce it: absent or supported. -/
def wfFit (f : ImageFit) : Prop := f = [] ∨ fitSupported f = true

theorem resolveFit_cases {f : ImageFit} (h : wfFit f) :
    resolveFit f = ImageFitCover ∨ resolveFit f = ImageFitContain := by
  rcases h with rfl | h
  · exact Or.inr rfl
  · rcases fitSupported_cases h with rfl | rfl
    · left
      rw [resolveFit, if_neg (by decide)]
    · right
      rw [resolveFit, if_neg (by decide)]

theorem resolveFit_no_dot {f : ImageFit} (h : wfFit f) : '.' ∉ resolveFit f := by
  rcases resolveFit_cases h with hr | hr <;> rw [hr] <;> decide

theorem filename_zero {r : Request} (hz : r.size.zero = true) :
    r.filename = uidString r.id ++ '.' :: r.format := by
  rw [Request.filename]
  simp [hz, idToFolder, extension]

theorem filename_nonzero {r : Request} (hz : r.size.zero = false) :
    r.filename = uidString r.id ++ '_' ::
      (r.size.string ++ '_' :: (resolveFit r.fit ++ '.' :: r.format)) := by
  rw [Request.filename]
  by_cases hf : r.fit = [] <;>
    simp [hz, hf, idToFolder, extension, resolveFit, List.append_assoc]

/-- C6 (amended): the filename is a function of id, size, fit and format
alone, and two requests with fromURL-producible fits receive the same
filename exactly when their ids and formats agree and either both sizes are
zero-equivalent (size and fit are then omitted) or the sizes are equal,
non-zero, and the fits resolve to the same effective fit (an unspecified
fit resolving to the default, contain). -/
theorem filename_eq_iff (r₁ r₂ : Request)
    (h1 : wfFit r₁.fit) (h2 : wfFit r₂.fit) :
    r₁.filename = r₂.filename ↔
      r₁.id = r₂.id ∧ r₁.format = r₂.format ∧
        ((r₁.size.zero = true ∧ r₂.size.zero = true) ∨
         (r₁.size = r₂.size ∧ r₁.size.zero = false ∧
           resolveFit r₁.fit = resolveFit r₂.fit)) := by
  cases hz1 : r₁.size.zero <;> cases hz2 : r₂.size.zero
  · rw [filename_nonzero hz1, filename_nonzero hz2]
    constructor
    · intro h
      have hinj := List.append_inj h (by rw [uid_length, uid_length])
      have hrest := (List.cons.injEq _ _ _ _ ▸ hinj.2).2
      obtain ⟨hs, htail⟩ := append_sep_inj (sizeString_no_underscore r₁.size)
        (sizeString_no_underscore r₂.size) hrest
      obtain ⟨hrf, hfm⟩ := append_sep_inj (resolveFit_no_dot h1)
        (resolveFit_no_dot h2) htail
      exact ⟨uidString_injective hinj.1, hfm,
        Or.inr ⟨sizeString_injective hs, rfl, hrf⟩⟩
    · rintro ⟨hid, hfm, ⟨hc, -⟩ | ⟨hsz, -, hrf⟩⟩
      · exact absurd hc (by decide)
      · rw [hid, hfm, hsz, hrf]
  · constructor
    · intro h
      rw [filename_nonzero hz1, filename_zero hz2] at h
      have hinj := List.append_inj h (by rw [uid_length, uid_length])
      exact absurd (List.cons.injEq _ _ _ _ ▸ hinj.2).1 (by decide)
    · rintro ⟨-, -, ⟨hc, -⟩ | ⟨hsz, -, -⟩⟩
      · exact absurd hc (by decide)
      · exact absurd ((hsz ▸ hz1).symm.trans hz2) (by decide)
  · constructor
    · intro h
      rw [filename_zero hz1, filename_nonzero hz2] at h
      have hinj := List.append_inj h (by rw [uid_length, uid_length])
      exact absurd (List.cons.injEq _ _ _ _ ▸ hinj.2).1 (by decide)
    · rintro ⟨-, -, ⟨-, hc⟩ | ⟨-, hc, -⟩⟩ <;> exact absurd hc (by decide)
  · rw [filename_zero hz1, filename_zero hz2]
    constructor
    · intro h
      have hinj := List.append_inj h (by rw [uid_length, uid_length])
      exact ⟨uidString_injective hinj.1, (List.cons.injEq _ _ _ _ ▸ hinj.2).2,
        Or.inl ⟨rfl, rfl⟩⟩
    · rintro ⟨hid, hfm, -⟩
      rw [hid, hfm]

/-- C6 (counterexample): two requests differing in exactly one input — the
size, (0,0) against the zero-equivalent (0,5) — receive the identical cache
filename, which the claim as stated does not allow. -/
theorem filename_zero_sizes_counterexample :
    Request.filename ⟨idA, ⟨0, 0⟩, [], ImageFormatJPEG, []⟩ =
      Request.filename ⟨idA, ⟨0, 5⟩, [], ImageFormatJPEG, []⟩ ∧
    (⟨0, 0⟩ : ImageSize) ≠ ⟨0, 5⟩ := by
  decide

/-- Witness for the amended filename characterization: a request with an
unspecified fit and one with the explicit default collapse to the same
filename. -/
theorem filename_eq_iff_witness :
    wfFit ([] : Str) ∧ wfFit ImageFitContain ∧
    Request.filename ⟨idA, ⟨300, 300⟩, [], ImageFormatJPEG, []⟩ =
      Request.filename ⟨idA, ⟨300, 300⟩, ImageFitContain, ImageFormatJPEG, [9]⟩ :=
  ⟨Or.inl rfl, Or.inr (by decide),
   (filename_eq_iff ⟨idA, ⟨300, 300⟩, [], ImageFormatJPEG, []⟩
     ⟨idA, ⟨300, 300⟩, ImageFitContain, ImageFormatJPEG, [9]⟩
     (Or.inl rfl) (Or.inr (by decide))).mpr (by decide)⟩

/-! ## C5: the serve path on a cache miss. -/

/-- A concrete registered backend for the evaluations below. -/
def storeA : Store :=
  ⟨("disk").toList, fun _ => Except.ok [1, 2, 3], fun _ _ => none, fun _ => none⟩

def recA : ImageRecord := ⟨idA, ("disk").toList, ImageFormatJPEG⟩

/-- A request carrying the signature its own fields hash to: it passes the
validity check. -/
def reqA : Request :=
  ⟨idA, ⟨300, 300⟩, ImageFitCover, ImageFormatJPEG,
   computeHash (some [7]) ⟨idA, ⟨300, 300⟩, ImageFitCover, ImageFormatJPEG, []⟩⟩

def stA : ServeState := ⟨[], [recA], [storeA]⟩

/-- C5 (counterexample): a validated request misses the cache, and the
serve path returns the backend's original bytes untransformed while
writing nothing into the cache: the state is unchanged and the request's
cache path still has no entry afterwards. -/
theorem getImage_miss_no_cache_write :
    Request.valid (some [7]) reqA = true ∧
    getCachedImage stA reqA = none ∧
    getImage stA reqA true = (Except.ok [1, 2, 3], stA) ∧
    getCachedImage (getImage stA reqA true).2 reqA = none :=
  ⟨(constantTimeCompare_eq_true_iff _ _).mpr rfl, rfl, rfl, rfl⟩

theorem getImage_state_unchanged (st : ServeState) (r : Request) (ce : Bool) :
    (getImage st r ce).2 = st := by
  have hun : (getImageUncached st r).2 = st := by
    cases hrec : GetImageRecord st.db r.id with
    | error e => simp [getImageUncached, hrec]
    | ok record =>
      cases hstore : ImageRecord.store st.stores record with
      | none => simp [getImageUncached, hrec, hstore]
      | some s =>
        cases hget : s.getResult record with
        | error e => simp [getImageUncached, hrec, hstore, hget]
        | ok image => simp [getImageUncached, hrec, hstore, hget]
  rw [getImage]
  split
  · cases hc : getCachedImage st r with
    | none => simp [hc, hun]
    | some image => simp [hc]
  · exact hun

/-- C5 (amended): the serve path never writes to the cache, and on a miss
with the record found, its store registered and the backend read
succeeding, it returns the original bytes unchanged. -/
theorem getImage_miss_returns_original :
    (∀ (st : ServeState) (r : Request) (ce : Bool), (getImage st r ce).2 = st) ∧
    (∀ (st : ServeState) (r : Request) (rec : ImageRecord) (s : Store) (b : Bytes),
      getCachedImage st r = none →
      GetImageRecord st.db r.id = Except.ok rec →
      matchStore st.stores rec.storeName = some s →
      s.getResult rec = Except.ok b →
      getImage st r true = (Except.ok b, st)) := by
  refine ⟨getImage_state_unchanged, ?_⟩
  intro st r rec s b hmiss hrec hstore hget
  rw [getImage, if_pos rfl]
  simp only [hmiss]
  simp only [getImageUncached, hrec, ImageRecord.store, hstore, hget]

/-- Witness for the amended serve-path behavior at a concrete state. -/
theorem getImage_miss_returns_original_witness :
    getCachedImage stA reqA = none ∧
    GetImageRecord stA.db reqA.id = Except.ok recA ∧
    matchStore stA.stores recA.storeName = some storeA ∧
    storeA.getResult recA = Except.ok [1, 2, 3] ∧
    getImage stA reqA true = (Except.ok [1, 2, 3], stA) :=
  ⟨rfl, rfl, rfl, rfl,
   getImage_miss_returns_original.2 stA reqA recA storeA [1, 2, 3] rfl rfl rfl rfl⟩

/-! ## C7: SaveImage's return pair. -/

def saveEnvA : SaveEnv :=
  ⟨[storeA], fun _ => some (4, 3), some (GoErr.backendErr 5), none, none, idA, []⟩

/-- C7 (code evidence): when BeginTx fails, SaveImage returns a nil record
and a nil error at once — the source's `return nil, nil` — contradicting
the claim that the pair is never doubly nil. -/
theorem saveImage_beginTx_fail_returns_nil_nil :
    saveEnvA.beginTxErr = some (GoErr.backendErr 5) ∧
    SaveImage saveEnvA (("disk").toList) [9, 9] none = (none, none) :=
  ⟨rfl, rfl⟩

/-! ## C8: ImageContainSize. -/

theorem ratTrunc_intCast (z : ℤ) : ratTrunc (z : ℚ) = z := by
  rw [ratTrunc]
  split
  · rw [show -((z : ℚ)) = ((-z : ℤ) : ℚ) by push_cast; ring, Int.floor_intCast]
    omega
  · exact Int.floor_intCast z

theorem imageContainSize_200_50 : ImageContainSize 200 50 100 100 = (100, 25) := by
  norm_num [ImageContainSize, ratTrunc]

/-- C8 (counterexample): on the box (100,100) and image (200,50) the result
is (100,25), whose sides stand in ratio 4:1 — not the 2:1 the claim
asserts for this image. -/
theorem imageContainSize_ratio_counterexample :
    ImageContainSize 200 50 100 100 = (100, 25) ∧ ¬((100 : ℤ) = 2 * 25) :=
  ⟨imageContainSize_200_50, by decide⟩

/-- C8 (amended): for the box (100,100) and the image (200,50) the result
(100,25) does not exceed either bound and preserves the image's aspect
ratio (4:1) exactly; and every image already within the box in both
dimensions is returned unchanged. -/
theorem imageContainSize_amended :
    (ImageContainSize 200 50 100 100 = (100, 25) ∧ (100 : ℤ) ≤ 100 ∧
      (25 : ℤ) ≤ 100 ∧ (100 : ℤ) = 4 * 25) ∧
    (∀ w h bw bh : ℤ, w ≤ bw → h ≤ bh → ImageContainSize w h bw bh = (w, h)) := by
  constructor
  · exact ⟨imageContainSize_200_50, by decide, by decide, by decide⟩
  · intro w h bw bh hw hh
    simp only [ImageContainSize]
    rw [if_neg (not_lt.mpr hw)]
    rw [if_neg (not_lt.mpr (show ((h : ℚ) ≤ (bh : ℚ)) from by exact_mod_cast hh))]
    simp [ratTrunc_intCast]

/-- Witness for the identity on images already inside the box. -/
theorem imageContainSize_amended_witness :
    (3 : ℤ) ≤ 10 ∧ (4 : ℤ) ≤ 10 ∧ ImageContainSize 3 4 10 10 = (3, 4) :=
  ⟨by decide, by decide,
   imageContainSize_amended.2 3 4 10 10 (by decide) (by decide)⟩

/-! ## C9: AverageColor of an all-black image. -/

theorem avgFold_zero (img : GoImage) :
    ∀ (pts : List (ℕ × ℕ)),
      (∀ p ∈ pts, (img.pixel p.1 p.2).1 = 0 ∧ (img.pixel p.1 p.2).2.1 = 0 ∧
        (img.pixel p.1 p.2).2.2.1 = 0) →
      pts.foldl (avgStep img) (0, 0, 0) = (0, 0, 0) := by
  intro pts hpts
  induction pts with
  | nil => rfl
  | cons p rest ih =>
    obtain ⟨h1, h2, h3⟩ := hpts p (List.mem_cons_self p rest)
    rw [List.foldl_cons, show avgStep img (0, 0, 0) p = (0, 0, 0) from by
      simp [avgStep, h1, h2, h3]]
    exact ih fun q hq => hpts q (List.mem_cons_of_mem p hq)

/-- C9: an image all of whose sampled pixels are zero-valued averages to
rgb(0,0,0): the channel accumulators stay zero, their sum x is zero, and
the normalization is guarded by x > 0, so the result defaults to black
instead of dividing by zero. -/
theorem averageColor_all_black (img : GoImage)
    (hblack : ∀ i ∈ samplePoints img.width
        (if img.width / 100 ≤ 0 then 1 else img.width / 100),
      ∀ j ∈ samplePoints img.height
        (if img.height / 100 ≤ 0 then 1 else img.height / 100),
      (img.pixel i j).1 = 0 ∧ (img.pixel i j).2.1 = 0 ∧
        (img.pixel i j).2.2.1 = 0) :
    AverageColor img = ⟨0, 0, 0⟩ := by
  rw [AverageColor]
  have hfold := avgFold_zero img
    ((samplePoints img.width (if img.width / 100 ≤ 0 then 1 else img.width / 100)).flatMap
      fun i =>
        (samplePoints img.height
          (if img.height / 100 ≤ 0 then 1 else img.height / 100)).map fun j => (i, j))
    (by
      intro p hp
      rw [List.mem_flatMap] at hp
      obtain ⟨i, hi, hp⟩ := hp
      rw [List.mem_map] at hp
      obtain ⟨j, hj, rfl⟩ := hp
      exact hblack i hi j hj)
  simp only [hfold]
  norm_num

def imgBlack : GoImage := ⟨3, 2, fun _ _ => (0, 0, 0, 65535)⟩

/-- Witness: a concrete 3-by-2 all-black image averages to rgb(0,0,0). -/
theorem averageColor_all_black_witness :
    (∀ i ∈ samplePoints imgBlack.width
        (if imgBlack.width / 100 ≤ 0 then 1 else imgBlack.width / 100),
      ∀ j ∈ samplePoints imgBlack.height
        (if imgBlack.height / 100 ≤ 0 then 1 else imgBlack.height / 100),
      (imgBlack.pixel i j).1 = 0 ∧ (imgBlack.pixel i j).2.1 = 0 ∧
        (imgBlack.pixel i j).2.2.1 = 0) ∧
    AverageColor imgBlack = ⟨0, 0, 0⟩ :=
  ⟨by decide, averageColor_all_black imgBlack (by decide)⟩

/-! ## C10: the unchecked store lookup in the delete path. -/

/-- C10: matchStore is nil exactly for unregistered names; DeleteImagesTx
is the record loop over the fetched rows; the loop dereferences the
unchecked lookup, panicking at a record with an unregistered store once the
records before it delete cleanly — there is no error branch for this case —
and never panics when every fetched record's store is registered; the serve
path instead checks the same lookup and returns an error. -/
theorem deleteImagesTx_nil_store_deref :
    (∀ (stores : List Store) (name : Str),
      matchStore stores name = none ↔ ∀ s ∈ stores, ¬ s.name = name) ∧
    (∀ (stores : List Store) (db : List ImageRecord) (ids : List UID),
      DeleteImagesTx stores db ids =
        deleteRecordsLoop stores (GetImageRecords db ids)) ∧
    (∀ (stores : List Store) (pre : List ImageRecord) (rec : ImageRecord)
        (post : List ImageRecord),
      (∀ p ∈ pre, ∃ s, matchStore stores p.storeName = some s ∧
        s.deleteResult p = none) →
      matchStore stores rec.storeName = none →
      deleteRecordsLoop stores (pre ++ rec :: post) = DeleteOutcome.nilStoreDeref) ∧
    (∀ (stores : List Store) (recs : List ImageRecord),
      (∀ rec ∈ recs, (matchStore stores rec.storeName).isSome = true) →
      deleteRecordsLoop stores recs ≠ DeleteOutcome.nilStoreDeref) ∧
    (∀ (st : ServeState) (r : Request) (rec : ImageRecord),
      getCachedImage st r = none →
      GetImageRecord st.db r.id = Except.ok rec →
      matchStore st.stores rec.storeName = none →
      getImage st r true = (Except.error GoErr.storeNotFound, st)) := by
  refine ⟨?_, fun _ _ _ => rfl, ?_, ?_, ?_⟩
  · intro stores name
    rw [matchStore, List.find?_eq_none]
    constructor
    · intro h s hs heq
      exact absurd (beq_iff_eq.mpr heq) (by simpa using h s hs)
    · intro h s hs
      simpa using fun hbeq => h s hs (beq_iff_eq.mp hbeq)
  · intro stores pre rec post hpre hm
    induction pre with
    | nil =>
      simp only [List.nil_append, deleteRecordsLoop, ImageRecord.store, hm]
    | cons p pre' ih =>
      obtain ⟨s, hs1, hs2⟩ := hpre p (List.mem_cons_self p pre')
      simp only [List.cons_append, deleteRecordsLoop, ImageRecord.store, hs1, hs2]
      exact ih fun q hq => hpre q (List.mem_cons_of_mem p hq)
  · intro stores recs hall
    induction recs with
    | nil => simp [deleteRecordsLoop]
    | cons rec rest ih =>
      obtain ⟨s, hs⟩ := Option.isSome_iff_exists.mp
        (hall rec (List.mem_cons_self rec rest))
      simp only [deleteRecordsLoop, ImageRecord.store, hs]
      cases hd : s.deleteResult rec with
      | none => exact ih fun q hq => hall q (List.mem_cons_of_mem rec hq)
      | some e => simp
  · intro st r rec hmiss hrec hstore
    rw [getImage, if_pos rfl]
    simp only [hmiss]
    simp only [getImageUncached, hrec, ImageRecord.store, hstore]

def recS3 : ImageRecord := ⟨idA, ("s3").toList, ImageFormatJPEG⟩

/-- Witness: with only the disk store registered, a record naming the s3
store panics the delete loop. -/
theorem deleteImagesTx_nil_store_deref_witness :
    matchStore [storeA] recS3.storeName = none ∧
    deleteRecordsLoop [storeA] ([] ++ recS3 :: []) = DeleteOutcome.nilStoreDeref :=
  ⟨rfl, deleteImagesTx_nil_store_deref.2.2.1 [storeA] [] recS3 []
    (fun p hp => absurd hp (List.not_mem_nil p)) rfl⟩

end DiscuitImages
